import Mathlib

/-!
Verification development for `vtkDecimatePolylineFilter`
(src/Filters/Core/vtkDecimatePolylineFilter.cxx).

The filter is shallowly embedded as executable Lean definitions:
* geometry over exact rationals (`Point3`, `dist2`, `distanceToLine`),
* the doubly linked `Polyline` arena (slots with index links, source lines 36-84),
* the priority queue collaborator (`vtkPriorityQueue`, external to the sample,
  modelled from the spec),
* the greedy reduction loop and the output assembler of `RequestData`
  (source lines 123-290).

States carry a few ghost fields (`live`, `safe`, `removalErrors`, `cellsOrig`)
that record facts about the execution without influencing it; they are used to
state safety and temporal properties.
-/

/-! ## Geometry -/

structure Point3 where
  x : ℚ
  y : ℚ
  z : ℚ
deriving DecidableEq

def origin : Point3 := ⟨0, 0, 0⟩

def Point3.sub (a b : Point3) : Point3 := ⟨a.x - b.x, a.y - b.y, a.z - b.z⟩

def dot (a b : Point3) : ℚ := a.x * b.x + a.y * b.y + a.z * b.z

/-- Modelled from the spec: `vtkMath::Distance2BetweenPoints`, the
"squared-distance-between-points primitive operating on 3-component
coordinates" (spec section 6); it is external to the sampled sources. -/
def dist2 (a b : Point3) : ℚ := dot (a.sub b) (a.sub b)

/-- Modelled from the spec: `vtkLine::DistanceToLine`, the "point-to-line
perpendicular distance primitive" (spec section 6); it is external to the
sampled sources.  Distances are represented throughout by their squares so
that the development stays inside `ℚ`; every use of the value (ordering of
queue entries, comparison against the error ceiling at `0` or at the
unconstrained default maximum) is invariant under the monotone square root.
The value is the squared perpendicular distance of `x` from the infinite
line through `p1` and `p2` (see theorem `C6` for the characterisation). -/
def distanceToLine (x p1 p2 : Point3) : ℚ :=
  if dist2 p1 p2 = 0 then dist2 x p1
  else dist2 x p1 - (dot (x.sub p1) (p2.sub p1)) ^ 2 / dist2 p1 p2

/-- A point of the infinite line through `p1` and `p2`, at parameter `t`. -/
def lineAt (p1 p2 : Point3) (t : ℚ) : Point3 :=
  ⟨p1.x + t * (p2.x - p1.x), p1.y + t * (p2.y - p1.y), p1.z + t * (p2.z - p1.z)⟩

/-! ## The polyline arena (source lines 36-84)

`Polyline` holds one slot per input vertex.  The C++ stores `prev`/`next` as
raw pointers into the slot array; the embedding stores them as slot indices
with `none` for the null pointer (the slot's own `index` field is its position,
which the index-valued links make implicit).  `removable` and `ids` are set by
the constructor and never mutated; `Remove` mutates only the links and the
size, exactly as source lines 74-79 do. -/

structure Polyline where
  size : ℕ
  ids : ℕ → ℕ
  prev : ℕ → Option ℕ
  next : ℕ → Option ℕ
  removable : ℕ → Bool
  isLoop : Bool

/-- Constructor, source lines 48-63. -/
def Polyline.ofIds (cell : List ℕ) : Polyline where
  size := cell.length
  ids := fun i => cell.getD i 0
  prev := fun i => if 0 < i ∧ i < cell.length then some (i - 1) else none
  next := fun i => if i + 1 < cell.length then some (i + 1) else none
  removable := fun i => decide (0 < i ∧ i + 1 < cell.length)
  isLoop := decide (cell.getD 0 0 = cell.getD (cell.length - 1) 0)

/-- `Polyline::Remove`, source lines 74-79.  The C++ dereferences the
`prev`/`next` pointers unconditionally; the embedding reads them with a
default and the reduction step separately records (in the ghost `safe` flag)
whether the dereferenced links were in fact non-null and live. -/
def Polyline.Remove (p : Polyline) (idx : ℕ) : Polyline :=
  let pr := (p.prev idx).getD 0
  let nx := (p.next idx).getD 0
  { p with
    size := p.size - 1
    next := fun j => if j = pr then p.next idx else p.next j
    prev := fun j => if j = nx then p.prev idx else p.prev j }

/-! ## ComputeError (source lines 100-118) -/

/-- Coordinate lookup in the external point store. -/
def pointOf (pts : List Point3) (pid : ℕ) : Point3 := pts.getD pid origin

/-- The position `x1` read at source line 106 (the `prev` neighbour). -/
def prevPos (pts : List Point3) (p : Polyline) (idx : ℕ) : Point3 :=
  pointOf pts (p.ids ((p.prev idx).getD 0))

/-- The position `x` read at source line 107 (the slot itself). -/
def selfPos (pts : List Point3) (p : Polyline) (idx : ℕ) : Point3 :=
  pointOf pts (p.ids idx)

/-- The position `x2` read at source line 108 (the `next` neighbour). -/
def nextPos (pts : List Point3) (p : Polyline) (idx : ℕ) : Point3 :=
  pointOf pts (p.ids ((p.next idx).getD 0))

/-- `vtkDecimatePolylineFilter::ComputeError`, source lines 100-118. -/
def computeError (pts : List Point3) (p : Polyline) (idx : ℕ) : ℚ :=
  if dist2 (prevPos pts p idx) (nextPos pts p idx) = 0 then 0
  else distanceToLine (selfPos pts p idx) (prevPos pts p idx) (nextPos pts p idx)

/-! ## The priority queue collaborator

Modelled from the spec (section 6): "a min-priority queue collaborator
supporting: insert(priority, id), pop-minimum (returns id or a sentinel
"empty" value), delete-by-id (removes a specific id regardless of its
priority, no-op if absent), and reset (clear all entries)".  `vtkPriorityQueue`
itself is external to the sampled sources.  Entries are kept in insertion
order; pop-minimum returns the earliest-inserted entry of minimal error
(spec section 4.3: tie order is deterministic but not semantically
significant).  Reset corresponds to starting from `[]`. -/

abbrev Queue := List (ℚ × ℕ)

def pqMinEntry : Queue → Option (ℚ × ℕ)
  | [] => none
  | e :: rest =>
    match pqMinEntry rest with
    | none => some e
    | some m => if e.1 ≤ m.1 then some e else some m

def pqRemoveFirst : Queue → (ℚ × ℕ) → Queue
  | [], _ => []
  | e :: rest, m => if e = m then rest else e :: pqRemoveFirst rest m

/-- Pop-minimum: the popped id (or `none`, the sentinel) and the remaining
queue. -/
def pqPop (q : Queue) : Option ℕ × Queue :=
  match pqMinEntry q with
  | none => (none, q)
  | some m => (some m.2, pqRemoveFirst q m)

/-- Delete-by-id. -/
def pqDeleteId (q : Queue) (i : ℕ) : Queue := q.filter (fun e => e.2 ≠ i)

/-! ## The reduction engine (source lines 197-249) -/

structure Config where
  targetReduction : ℚ
  maximumError : ℚ

/-- `MaximumError`'s default, `VTK_DOUBLE_MAX` (source line 92), is the
largest finite IEEE double, `(2 - 2 ^ (-52)) * 2 ^ 1023`, exact in `ℚ`. -/
def vtkDoubleMax : ℚ := 2 ^ 1024 - 2 ^ 971

/-- Default configuration (source lines 88-94). -/
def defaultConfig : Config := { targetReduction := 9 / 10, maximumError := vtkDoubleMax }

/-- State of the per-polyline reduction loop.  `poly`, `queue` and `cur`
(`currentNumPts`) are the program state; `live` (slot not yet removed),
`safe` (no popped slot ever violated the implicit pointer contract) and
`errs` (the computed error of each removed vertex, at removal time) are
ghost instrumentation. -/
structure ReduceState where
  poly : Polyline
  queue : Queue
  cur : ℕ
  live : ℕ → Bool
  safe : Bool
  errs : List ℚ

/-- Seeding pass, source lines 198-209: every removable slot whose error is
within the ceiling enters the queue. -/
def seedQueue (pts : List Point3) (cfg : Config) (p : Polyline) : Queue :=
  (List.range p.size).foldl
    (fun q i =>
      if p.removable i = true then
        (if computeError pts p i ≤ cfg.maximumError then q ++ [(computeError pts p i, i)] else q)
      else q)
    []

/-- The `while` condition at source lines 214-216. -/
def loopGuard (cfg : Config) (n0 : ℕ) (s : ReduceState) : Bool :=
  decide (1 - (s.cur : ℚ) / (n0 : ℚ) < cfg.targetReduction) &&
    ((!s.poly.isLoop && decide (2 < s.cur)) || (s.poly.isLoop && decide (3 < s.cur)))

/-- The neighbour-refresh block, source lines 230-238 (for `prev`) and
240-248 (for `next`): if the neighbour `j` is removable, recompute its error
against its new neighbours, delete its stale queue entry, and re-insert it
only when the new error is within the ceiling. -/
def refreshNeighbor (cfg : Config) (pts : List Point3) (p2 : Polyline) (q : Queue) (j : ℕ) :
    Queue :=
  if p2.removable j then
    (if computeError pts p2 j ≤ cfg.maximumError then
      pqDeleteId q j ++ [(computeError pts p2 j, j)]
    else pqDeleteId q j)
  else q

/-- Ghost check recorded at every pop: the popped slot was removable and
live, its links were non-null and pointed at live slots (the pointers
dereferenced by `Remove` at source lines 77-78 and by the neighbour reads at
lines 226-227), and each refreshed neighbour's own links were non-null where
`ComputeError` dereferences them (lines 106-108). -/
def popCheck (s : ReduceState) (idx : ℕ) : Bool :=
  let p := s.poly
  let p2 := p.Remove idx
  let pr := (p2.prev idx).getD 0
  let nx := (p2.next idx).getD 0
  p.removable idx && (p.prev idx).isSome && (p.next idx).isSome &&
    s.live idx && s.live pr && s.live nx &&
    (!p2.removable pr || ((p2.prev pr).isSome && (p2.next pr).isSome)) &&
    (!p2.removable nx || ((p2.prev nx).isSome && (p2.next nx).isSome))

/-- Body of the reduction loop after a successful pop, source lines 224-248:
decrement the count, unlink the popped slot, and refresh the queue entries of
its two former neighbours (delete stale entry, re-insert if within the
ceiling).  The `live`, `safe` and `errs` updates are ghost. -/
def reduceStep (cfg : Config) (pts : List Point3) (s : ReduceState) (idx : ℕ) : ReduceState :=
  let p := s.poly
  let p2 := p.Remove idx
  let pr := (p2.prev idx).getD 0
  let nx := (p2.next idx).getD 0
  let q1 : Queue := refreshNeighbor cfg pts p2 s.queue pr
  let q2 : Queue := refreshNeighbor cfg pts p2 q1 nx
  { poly := p2
    queue := q2
    cur := s.cur - 1
    live := fun j => if j = idx then false else s.live j
    safe := s.safe && popCheck s idx
    errs := s.errs ++ [computeError pts p idx] }

/-- The reduction loop, source lines 213-249, with explicit fuel.  One unit
of fuel is spent per removal; since a polyline of `n` vertices admits at most
`n - 2` removals, fuel `n` makes the recursion equal to the C++ `while`. -/
def reduceLoop (cfg : Config) (pts : List Point3) (n0 : ℕ) : ℕ → ReduceState → ReduceState
  | 0, s => s
  | fuel + 1, s =>
    if loopGuard cfg n0 s then
      match pqPop s.queue with
      | (none, _) => s
      | (some idx, q2) => reduceLoop cfg pts n0 fuel (reduceStep cfg pts { s with queue := q2 } idx)
    else s

/-- State before the reduction loop of one polyline: fresh arena, seeded
queue, `currentNumPts = polylineSize`. -/
def initialReduceState (pts : List Point3) (cfg : Config) (cell : List ℕ) : ReduceState :=
  let p0 := Polyline.ofIds cell
  { poly := p0
    queue := seedQueue pts cfg p0
    cur := cell.length
    live := fun j => decide (j < cell.length)
    safe := true
    errs := [] }

/-- Reduction of one polyline end to end. -/
def reduceCell (cfg : Config) (pts : List Point3) (cell : List ℕ) : ReduceState :=
  reduceLoop cfg pts cell.length cell.length (initialReduceState pts cfg cell)

/-! ## The output assembler (source lines 251-279) -/

/-- The emission walk of source lines 257-276: follow `next` links from slot
0 until the null link.  Fuel bounds the walk; in every reachable state the
live list has at most `n` slots, so fuel `n` makes the recursion equal to
the C++ `while (vertex != nullptr)`. -/
def walkIdx (p : Polyline) : ℕ → Option ℕ → List ℕ
  | _, none => []
  | 0, some _ => []
  | fuel + 1, some v => v :: walkIdx p fuel (p.next v)

/-- The ordered original point ids surviving in one polyline after
reduction. -/
def survivorIds (cfg : Config) (pts : List Point3) (cell : List ℕ) : List ℕ :=
  let s1 := reduceCell cfg pts cell
  (walkIdx s1.poly cell.length (some 0)).map s1.poly.ids

/-- Output side of `RequestData`.  `pts` is `newPts`, `cells` is `newLines`
(with the new point ids), `pdCopies`/`cdCopies` record every
`CopyData(source, dest)` call on the point/cell attribute tables, and
`pointIdMap` is the run-scoped original-to-new id map of source line 182.
`cellsOrig` (each output cell as original ids), `safe` and `removalErrors`
are ghost instrumentation. -/
structure OutState where
  pts : List Point3
  cells : List (List ℕ)
  cellsOrig : List (List ℕ)
  pdCopies : List (ℕ × ℕ)
  cdCopies : List (ℕ × ℕ)
  pointIdMap : List (ℕ × ℕ)
  safe : Bool
  removalErrors : List ℚ

def emptyOutState : OutState :=
  { pts := [], cells := [], cellsOrig := [], pdCopies := [], cdCopies := []
    pointIdMap := [], safe := true, removalErrors := [] }

/-- `std::map` lookup (first matching key; keys are unique because only
absent keys are ever inserted). -/
def lookupId : List (ℕ × ℕ) → ℕ → Option ℕ
  | [], _ => none
  | e :: rest, k => if e.1 = k then some e.2 else lookupId rest k

/-- Emission of one surviving vertex, source lines 262-273: a first-seen
original id appends a new output point, copies its point attributes once and
enters the map; a repeated id reuses the recorded new id. -/
def emitId (pts : List Point3) (acc : OutState × List ℕ × List ℕ) (pid : ℕ) :
    OutState × List ℕ × List ℕ :=
  match lookupId acc.1.pointIdMap pid with
  | none =>
    let st := acc.1
    let nid := st.pts.length
    ({ st with
        pts := st.pts ++ [pointOf pts pid]
        pdCopies := st.pdCopies ++ [(pid, nid)]
        pointIdMap := st.pointIdMap ++ [(pid, nid)] },
      acc.2.1 ++ [nid], acc.2.2 ++ [pid])
  | some nid => (acc.1, acc.2.1 ++ [nid], acc.2.2 ++ [pid])

/-- Processing of one input line cell (body of the loop at source lines
184-280): build the arena, seed, reduce, then emit the survivors as one new
cell.  The accumulator carries the output state and `firstVertexIndex`, which
the source increments by `polylineSize` per cell and passes as the *source
tuple index* of the per-cell attribute copy at line 253. -/
def processPolyline (cfg : Config) (pts : List Point3) (acc : OutState × ℕ) (cell : List ℕ) :
    OutState × ℕ :=
  let st := acc.1
  let s1 := reduceCell cfg pts cell
  let newCellId := st.cells.length
  let st1 :=
    { st with
      cdCopies := st.cdCopies ++ [(acc.2, newCellId)]
      safe := st.safe && s1.safe
      removalErrors := st.removalErrors ++ s1.errs }
  let r := (survivorIds cfg pts cell).foldl (emitId pts) (st1, [], [])
  ({ r.1 with cells := r.1.cells ++ [r.2.1], cellsOrig := r.1.cellsOrig ++ [r.2.2] },
    acc.2 + cell.length)

structure InputPolyData where
  points : List Point3
  lines : List (List ℕ)

/-- `vtkDecimatePolylineFilter::RequestData`, source lines 123-290.  Missing
input topology or points makes the whole operation a no-op (lines 139-148);
otherwise every cell is processed in order.  The cooperative `CheckAbort`
of line 187 is modelled as never firing (cancellation is an external
service).  The returned code is the C++ `return 1` (success, always). -/
def RequestData (cfg : Config) (input : InputPolyData) : OutState × ℤ :=
  if input.lines.length < 1 ∨ input.points.length < 1 then (emptyOutState, 1)
  else ((input.lines.foldl (processPolyline cfg input.points) (emptyOutState, 0)).1, 1)

/-! ## Basic lemmas about the priority queue model -/

theorem pqMinEntry_mem : ∀ {q : Queue} {m : ℚ × ℕ}, pqMinEntry q = some m → m ∈ q := by
  intro q
  induction q with
  | nil => intro m h; simp [pqMinEntry] at h
  | cons e rest ih =>
    intro m h
    simp only [pqMinEntry] at h
    rcases hrest : pqMinEntry rest with _ | m2
    · rw [hrest] at h
      simp at h
      simp [h]
    · rw [hrest] at h
      by_cases hle : e.1 ≤ m2.1
      · simp [hle] at h
        simp [h]
      · simp [hle] at h
        exact List.mem_cons_of_mem e (ih (h ▸ hrest))

theorem pqMinEntry_eq_none {q : Queue} : pqMinEntry q = none ↔ q = [] := by
  cases q with
  | nil => simp [pqMinEntry]
  | cons e rest =>
    simp only [pqMinEntry]
    rcases hrest : pqMinEntry rest with _ | m2 <;> simp
    by_cases hle : e.1 ≤ m2.1 <;> simp [hle]

theorem pqRemoveFirst_sublist : ∀ (q : Queue) (m : ℚ × ℕ), List.Sublist (pqRemoveFirst q m) q := by
  intro q m
  induction q with
  | nil => simp [pqRemoveFirst]
  | cons e rest ih =>
    simp only [pqRemoveFirst]
    by_cases he : e = m
    · simp [he]
    · simpa [he] using ih.cons₂ e

theorem pqRemoveFirst_mem {q : Queue} {m e : ℚ × ℕ} (h : e ∈ pqRemoveFirst q m) : e ∈ q :=
  (pqRemoveFirst_sublist q m).mem h

theorem pqRemoveFirst_ne {q : Queue} {m e : ℚ × ℕ}
    (hnd : (q.map Prod.snd).Nodup) (hm : m ∈ q) (h : e ∈ pqRemoveFirst q m) : e.2 ≠ m.2 := by
  induction q with
  | nil => cases hm
  | cons x rest ih =>
    simp only [List.map_cons, List.nodup_cons] at hnd
    simp only [pqRemoveFirst] at h
    by_cases hx : x = m
    · subst hx
      rw [if_pos rfl] at h
      intro he
      exact hnd.1 (he ▸ List.mem_map_of_mem Prod.snd h)
    · rw [if_neg hx] at h
      rcases List.mem_cons.mp hm with hm2 | hm2
      · exact absurd hm2.symm hx
      rcases List.mem_cons.mp h with h2 | h2
      · subst h2
        intro he
        exact hnd.1 (he ▸ List.mem_map_of_mem Prod.snd hm2)
      · exact ih hnd.2 hm2 h2

theorem pqPop_some {q : Queue} {idx : ℕ} {q2 : Queue} (h : pqPop q = (some idx, q2)) :
    ∃ m, pqMinEntry q = some m ∧ m.2 = idx ∧ q2 = pqRemoveFirst q m := by
  rcases hm : pqMinEntry q with _ | m
  · simp [pqPop, hm] at h
  · simp only [pqPop, hm, Prod.mk.injEq, Option.some.injEq] at h
    exact ⟨m, rfl, h.1, h.2.symm⟩

theorem pqDeleteId_mem {q : Queue} {i : ℕ} {e : ℚ × ℕ} :
    e ∈ pqDeleteId q i ↔ e ∈ q ∧ e.2 ≠ i := by
  simp [pqDeleteId]

theorem pqDeleteId_sublist (q : Queue) (i : ℕ) : List.Sublist (pqDeleteId q i) q :=
  List.filter_sublist q

/-! ## Geometry lemmas -/

theorem dot_self_nonneg (u : Point3) : 0 ≤ dot u u := by
  have := sq_nonneg u.x
  have := sq_nonneg u.y
  have := sq_nonneg u.z
  simp only [dot]
  nlinarith

theorem dist2_nonneg (a b : Point3) : 0 ≤ dist2 a b := dot_self_nonneg (a.sub b)

/-- Cauchy-Schwarz in three rational coordinates, via the Lagrange identity. -/
theorem dot_sq_le (u v : Point3) : (dot u v) ^ 2 ≤ dot u u * dot v v := by
  have key : dot u u * dot v v - (dot u v) ^ 2 =
      (u.x * v.y - u.y * v.x) ^ 2 + (u.x * v.z - u.z * v.x) ^ 2 +
        (u.y * v.z - u.z * v.y) ^ 2 := by
    simp only [dot]
    ring
  nlinarith [sq_nonneg (u.x * v.y - u.y * v.x), sq_nonneg (u.x * v.z - u.z * v.x),
    sq_nonneg (u.y * v.z - u.z * v.y)]

theorem dist2_eq_dot (p1 p2 : Point3) : dist2 p1 p2 = dot (p2.sub p1) (p2.sub p1) := by
  simp only [dist2, dot, Point3.sub]
  ring

theorem distanceToLine_nonneg (x p1 p2 : Point3) : 0 ≤ distanceToLine x p1 p2 := by
  rw [distanceToLine]
  split
  · exact dist2_nonneg x p1
  · rename_i h
    have hd : 0 < dot (p2.sub p1) (p2.sub p1) := by
      rcases lt_or_eq_of_le (dot_self_nonneg (p2.sub p1)) with h1 | h1
      · exact h1
      · exact absurd (dist2_eq_dot p1 p2 ▸ h1.symm) h
    rw [sub_nonneg, dist2_eq_dot p1 p2, div_le_iff₀ hd]
    have : dist2 x p1 = dot (x.sub p1) (x.sub p1) := rfl
    rw [this]
    exact dot_sq_le (x.sub p1) (p2.sub p1)

theorem computeError_nonneg (pts : List Point3) (p : Polyline) (idx : ℕ) :
    0 ≤ computeError pts p idx := by
  rw [computeError]
  split
  · exact le_refl 0
  · exact distanceToLine_nonneg _ _ _

/-- Squared distance from `x` to the parameter-`t` point of the line, as a
quadratic in `t`. -/
theorem dist2_lineAt (x p1 p2 : Point3) (t : ℚ) :
    dist2 x (lineAt p1 p2 t) =
      dot (x.sub p1) (x.sub p1) - 2 * t * dot (x.sub p1) (p2.sub p1) +
        t ^ 2 * dot (p2.sub p1) (p2.sub p1) := by
  simp only [dist2, dot, Point3.sub, lineAt]
  ring

/-- The value of `distanceToLine` is attained on the line, at the foot of the
perpendicular. -/
theorem distanceToLine_attained (x p1 p2 : Point3) (h : dist2 p1 p2 ≠ 0) :
    distanceToLine x p1 p2 =
      dist2 x (lineAt p1 p2 (dot (x.sub p1) (p2.sub p1) / dist2 p1 p2)) := by
  have hd : dot (p2.sub p1) (p2.sub p1) ≠ 0 := fun hc => h (dist2_eq_dot p1 p2 ▸ hc)
  rw [distanceToLine, if_neg h, dist2_lineAt, dist2_eq_dot p1 p2]
  have : dist2 x p1 = dot (x.sub p1) (x.sub p1) := rfl
  rw [this]
  field_simp
  ring

/-- The value of `distanceToLine` is a lower bound for the squared distance
from `x` to every point of the line. -/
theorem distanceToLine_le (x p1 p2 : Point3) (h : dist2 p1 p2 ≠ 0) (t : ℚ) :
    distanceToLine x p1 p2 ≤ dist2 x (lineAt p1 p2 t) := by
  have hd : 0 < dot (p2.sub p1) (p2.sub p1) := by
    rcases lt_or_eq_of_le (dot_self_nonneg (p2.sub p1)) with h1 | h1
    · exact h1
    · exact absurd (dist2_eq_dot p1 p2 ▸ h1.symm) h
  have key : dist2 x (lineAt p1 p2 t) - distanceToLine x p1 p2 =
      dot (p2.sub p1) (p2.sub p1) *
        (t - dot (x.sub p1) (p2.sub p1) / dot (p2.sub p1) (p2.sub p1)) ^ 2 := by
    rw [distanceToLine, if_neg h, dist2_lineAt, dist2_eq_dot p1 p2]
    have : dist2 x p1 = dot (x.sub p1) (x.sub p1) := rfl
    rw [this]
    field_simp
    ring
  nlinarith [sq_nonneg (t - dot (x.sub p1) (p2.sub p1) / dot (p2.sub p1) (p2.sub p1))]

/-! ## The seeding pass and the neighbour refresh -/

theorem seedQueue_eq (pts : List Point3) (cfg : Config) (p : Polyline) :
    seedQueue pts cfg p =
      ((List.range p.size).filter
        (fun i => p.removable i && decide (computeError pts p i ≤ cfg.maximumError))).map
        (fun i => (computeError pts p i, i)) := by
  have key : ∀ (l : List ℕ) (q : Queue),
      l.foldl (fun q i =>
        if p.removable i = true then
          (if computeError pts p i ≤ cfg.maximumError then q ++ [(computeError pts p i, i)]
           else q)
        else q) q
      = q ++ (l.filter
          (fun i => p.removable i && decide (computeError pts p i ≤ cfg.maximumError))).map
          (fun i => (computeError pts p i, i)) := by
    intro l
    induction l with
    | nil => intro q; simp
    | cons a t ih =>
      intro q
      simp only [List.foldl_cons, List.filter_cons]
      by_cases h1 : p.removable a = true
      · by_cases h2 : computeError pts p a ≤ cfg.maximumError
        · rw [if_pos h1, if_pos h2, ih]
          simp [h1, h2]
        · rw [if_pos h1, if_neg h2, ih]
          simp [h1, h2]
      · rw [if_neg h1, ih]
        simp [h1]
  rw [seedQueue, key]
  simp

theorem seedQueue_mem {pts : List Point3} {cfg : Config} {p : Polyline} {e : ℚ × ℕ}
    (h : e ∈ seedQueue pts cfg p) :
    e.2 < p.size ∧ p.removable e.2 = true ∧ e.1 = computeError pts p e.2 ∧
      e.1 ≤ cfg.maximumError := by
  rw [seedQueue_eq] at h
  simp only [List.mem_map, List.mem_filter, List.mem_range, Bool.and_eq_true,
    decide_eq_true_eq] at h
  obtain ⟨i, ⟨hi, hrem, hle⟩, rfl⟩ := h
  exact ⟨hi, hrem, rfl, hle⟩

theorem seedQueue_nodup (pts : List Point3) (cfg : Config) (p : Polyline) :
    ((seedQueue pts cfg p).map Prod.snd).Nodup := by
  rw [seedQueue_eq, List.map_map]
  have h : (Prod.snd ∘ fun i => (computeError pts p i, i)) = id := rfl
  rw [h, List.map_id]
  exact List.Nodup.sublist (List.filter_sublist _) (List.nodup_range _)

theorem refreshNeighbor_mem {cfg : Config} {pts : List Point3} {p2 : Polyline} {q : Queue}
    {j : ℕ} {e : ℚ × ℕ} (h : e ∈ refreshNeighbor cfg pts p2 q j) :
    (e ∈ q ∧ (p2.removable j = true → e.2 ≠ j)) ∨
      (e = (computeError pts p2 j, j) ∧ p2.removable j = true ∧ e.1 ≤ cfg.maximumError) := by
  rw [refreshNeighbor] at h
  by_cases h1 : p2.removable j
  · rw [if_pos h1] at h
    by_cases h2 : computeError pts p2 j ≤ cfg.maximumError
    · rw [if_pos h2] at h
      rcases List.mem_append.mp h with h3 | h3
      · exact Or.inl ⟨(pqDeleteId_mem.mp h3).1, fun _ => (pqDeleteId_mem.mp h3).2⟩
      · simp only [List.mem_singleton] at h3
        refine Or.inr ⟨h3, h1, ?_⟩
        rw [h3]
        exact h2
    · rw [if_neg h2] at h
      exact Or.inl ⟨(pqDeleteId_mem.mp h).1, fun _ => (pqDeleteId_mem.mp h).2⟩
  · rw [if_neg h1] at h
    exact Or.inl ⟨h, fun hc => absurd hc h1⟩

theorem refreshNeighbor_nodup {cfg : Config} {pts : List Point3} {p2 : Polyline} {q : Queue}
    {j : ℕ} (h : (q.map Prod.snd).Nodup) :
    ((refreshNeighbor cfg pts p2 q j).map Prod.snd).Nodup := by
  rw [refreshNeighbor]
  by_cases h1 : p2.removable j
  · rw [if_pos h1]
    have hd : ((pqDeleteId q j).map Prod.snd).Nodup :=
      List.Nodup.sublist ((pqDeleteId_sublist q j).map Prod.snd) h
    by_cases h2 : computeError pts p2 j ≤ cfg.maximumError
    · rw [if_pos h2, List.map_append]
      refine List.Nodup.append hd (by simp) ?_
      intro a ha hb
      simp only [List.map_cons, List.map_nil, List.mem_singleton] at hb
      subst hb
      obtain ⟨e, he, rfl⟩ := List.mem_map.mp ha
      exact (pqDeleteId_mem.mp he).2 rfl
    · rw [if_neg h2]
      exact hd
  · rw [if_neg h1]
    exact h

/-! ## The linked-list chain -/

/-- Slot `b` directly follows slot `a` in the doubly linked list. -/
def Linked (p : Polyline) (a b : ℕ) : Prop := p.next a = some b ∧ p.prev b = some a

theorem chain'_imp_mem {R S : ℕ → ℕ → Prop} :
    ∀ {L : List ℕ}, List.Chain' R L → (∀ x ∈ L, ∀ y ∈ L, R x y → S x y) →
      List.Chain' S L := by
  intro L
  induction L with
  | nil => intro _ _; exact List.chain'_nil
  | cons a t ih =>
    intro h hmem
    rw [List.chain'_cons'] at h ⊢
    refine ⟨?_, ?_⟩
    · intro y hy
      exact hmem a (by simp) y (List.mem_cons_of_mem a (List.mem_of_mem_head? hy)) (h.1 y hy)
    · exact ih h.2 fun x hx y hy hr =>
        hmem x (List.mem_cons_of_mem a hx) y (List.mem_cons_of_mem a hy) hr

theorem linked_of_append (p : Polyline) {L A B : List ℕ} {x : ℕ}
    (hch : List.Chain' (Linked p) L) (hL : L = A ++ x :: B) :
    (∀ a, A.getLast? = some a → Linked p a x) ∧ (∀ b, B.head? = some b → Linked p x b) := by
  subst hL
  rw [List.chain'_append] at hch
  obtain ⟨hA, hxB, hjun⟩ := hch
  rw [List.chain'_cons'] at hxB
  refine ⟨?_, ?_⟩
  · intro a ha
    exact hjun a ha x (by simp)
  · intro b hb
    exact hxB.1 b hb

theorem links_isSome_of_interior (p : Polyline) {L : List ℕ} {x : ℕ}
    (hch : List.Chain' (Linked p) L) (hx : x ∈ L)
    (hh : L.head? ≠ some x) (hl : L.getLast? ≠ some x) :
    ∃ a b, p.prev x = some a ∧ p.next x = some b := by
  obtain ⟨A, B, hL⟩ := List.append_of_mem hx
  have hA : A ≠ [] := by
    rintro rfl
    exact hh (by simp [hL])
  have hB : B ≠ [] := by
    rintro rfl
    refine hl ?_
    rw [hL]
    exact List.getLast?_concat A
  obtain ⟨a, ha⟩ := Option.isSome_iff_exists.mp (List.getLast?_isSome.mpr hA)
  obtain ⟨b, hb⟩ := Option.isSome_iff_exists.mp (List.head?_isSome.mpr hB)
  obtain ⟨l1, l2⟩ := linked_of_append p hch hL
  exact ⟨a, b, (l1 a ha).2, (l2 b hb).1⟩

/-! ## The emission walk follows the chain -/

theorem walkIdx_none (p : Polyline) (fuel : ℕ) : walkIdx p fuel none = [] := by
  cases fuel <;> rfl

theorem walk_of_chain (p : Polyline) :
    ∀ (L : List ℕ) (fuel : ℕ), List.Chain' (Linked p) L →
      (∀ a, L.getLast? = some a → p.next a = none) →
      L.length ≤ fuel → walkIdx p fuel L.head? = L := by
  intro L
  induction L with
  | nil => intro fuel _ _ _; exact walkIdx_none p fuel
  | cons v t ih =>
    intro fuel hch hlast hlen
    obtain ⟨f, rfl⟩ : ∃ f, fuel = f + 1 := by
      cases fuel with
      | zero => simp at hlen
      | succ f => exact ⟨f, rfl⟩
    show walkIdx p (f + 1) (some v) = v :: t
    rw [walkIdx]
    cases t with
    | nil =>
      rw [hlast v rfl, walkIdx_none]
    | cons w t2 =>
      have hvw : Linked p v w := (List.chain'_cons.mp hch).1
      rw [hvw.1]
      have hch2 : List.Chain' (Linked p) (w :: t2) := (List.chain'_cons.mp hch).2
      have hlast2 : ∀ a, (w :: t2).getLast? = some a → p.next a = none := by
        intro a ha
        apply hlast
        rw [List.getLast?_cons_cons]
        exact ha
      have hres := ih f hch2 hlast2 (by simp only [List.length_cons] at hlen ⊢; omega)
      simpa using hres

theorem length_le_of_nodup_lt {L : List ℕ} {n : ℕ} (hnd : L.Nodup) (hlt : ∀ j ∈ L, j < n) :
    L.length ≤ n := by
  have h1 : L.toFinset.card = L.length := List.toFinset_card_of_nodup hnd
  have h2 : L.toFinset ⊆ Finset.range n := by
    intro a ha
    rw [List.mem_toFinset] at ha
    exact Finset.mem_range.mpr (hlt a ha)
  have h3 := Finset.card_le_card h2
  rw [h1, Finset.card_range] at h3
  exact h3

/-! ## Small facts about `Remove` and `computeError` -/

theorem Remove_ids (p : Polyline) (idx : ℕ) : (p.Remove idx).ids = p.ids := rfl

theorem Remove_removable (p : Polyline) (idx : ℕ) : (p.Remove idx).removable = p.removable := rfl

theorem Remove_isLoop (p : Polyline) (idx : ℕ) : (p.Remove idx).isLoop = p.isLoop := rfl

theorem Remove_next (p : Polyline) (idx j : ℕ) :
    (p.Remove idx).next j = if j = (p.prev idx).getD 0 then p.next idx else p.next j := rfl

theorem Remove_prev (p : Polyline) (idx j : ℕ) :
    (p.Remove idx).prev j = if j = (p.next idx).getD 0 then p.prev idx else p.prev j := rfl

theorem computeError_congr {pts : List Point3} {p p2 : Polyline} {j : ℕ}
    (hids : p2.ids = p.ids) (hprev : p2.prev j = p.prev j) (hnext : p2.next j = p.next j) :
    computeError pts p2 j = computeError pts p j := by
  simp only [computeError, prevPos, nextPos, selfPos, hids, hprev, hnext]

theorem ofIds_removable (cell : List ℕ) (j : ℕ) :
    (Polyline.ofIds cell).removable j = decide (0 < j ∧ j + 1 < cell.length) := rfl

/-! ## The reduction-loop invariant

`L` is the sorted list of live slot indices.  The invariant ties the program
state to `L`: live slots are exactly `L`'s members, the `prev`/`next` links
realize `L` as a doubly linked chain whose ends are the two endpoint slots,
`currentNumPts` counts `L`, and the queue holds only live removable slots,
each at most once, with its *current* error, within the ceiling. -/
structure LoopInv (pts : List Point3) (cfg : Config) (cell : List ℕ) (s : ReduceState)
    (L : List ℕ) : Prop where
  sorted : List.Sorted (· < ·) L
  liveIff : ∀ j, s.live j = true ↔ j ∈ L
  headL : L.head? = some 0
  lastL : L.getLast? = some (cell.length - 1)
  chain : List.Chain' (Linked s.poly) L
  lastNext : s.poly.next (cell.length - 1) = none
  memLt : ∀ j ∈ L, j < cell.length
  keepNR : ∀ j, j < cell.length → s.poly.removable j = false → j ∈ L
  curEq : s.cur = L.length
  queueMem : ∀ e ∈ s.queue, e.2 ∈ L ∧ s.poly.removable e.2 = true ∧
    e.1 = computeError pts s.poly e.2 ∧ e.1 ≤ cfg.maximumError
  queueNodup : (s.queue.map Prod.snd).Nodup
  safeEq : s.safe = true
  idsEq : s.poly.ids = (Polyline.ofIds cell).ids
  removableEq : s.poly.removable = (Polyline.ofIds cell).removable
  isLoopEq : s.poly.isLoop = (Polyline.ofIds cell).isLoop

theorem loopInv_init (pts : List Point3) (cfg : Config) (cell : List ℕ) (hcell : cell ≠ []) :
    LoopInv pts cfg cell (initialReduceState pts cfg cell) (List.range cell.length) := by
  have hn : 0 < cell.length := List.length_pos.mpr hcell
  refine ⟨?_, ?_, ?_, ?_, ?_, ?_, ?_, ?_, ?_, ?_, ?_, rfl, rfl, rfl, rfl⟩
  · exact List.sorted_lt_range cell.length
  · intro j
    simp [initialReduceState, List.mem_range]
  · cases hc : cell.length with
    | zero => omega
    | succ m => rw [List.range_succ_eq_map]; rfl
  · cases hc : cell.length with
    | zero => omega
    | succ m =>
      rw [List.range_succ]
      rw [List.getLast?_concat]
      simp
  · show List.Chain' (Linked (Polyline.ofIds cell)) (List.range cell.length)
    cases hc : cell.length with
    | zero => simp
    | succ m =>
      rw [List.chain'_range_succ]
      intro i hi
      constructor
      · show (Polyline.ofIds cell).next i = some (i + 1)
        simp only [Polyline.ofIds]
        rw [if_pos (by omega)]
      · show (Polyline.ofIds cell).prev (i + 1) = some i
        simp only [Polyline.ofIds]
        rw [if_pos (by omega)]
        simp
  · show (Polyline.ofIds cell).next (cell.length - 1) = none
    simp only [Polyline.ofIds]
    rw [if_neg (by omega)]
  · intro j hj
    exact List.mem_range.mp hj
  · intro j hj _
    exact List.mem_range.mpr hj
  · simp [initialReduceState]
  · intro e he
    have h := @seedQueue_mem pts cfg (Polyline.ofIds cell) _ he
    exact ⟨List.mem_range.mpr h.1, h.2.1, h.2.2.1, h.2.2.2⟩
  · exact seedQueue_nodup pts cfg (Polyline.ofIds cell)


theorem loopInv_step {pts : List Point3} {cfg : Config} {cell : List ℕ} {s : ReduceState}
    {L : List ℕ} {idx : ℕ} {q2 : Queue}
    (inv : LoopInv pts cfg cell s L) (hpop : pqPop s.queue = (some idx, q2)) :
    ∃ L2, LoopInv pts cfg cell (reduceStep cfg pts { s with queue := q2 } idx) L2 ∧
      L2.length + 1 = L.length := by
  obtain ⟨m, hmin, hm2, hq2⟩ := pqPop_some hpop
  subst hm2
  subst hq2
  have hmem : m ∈ s.queue := pqMinEntry_mem hmin
  obtain ⟨hidxL, hrem0, hfresh0, hle0⟩ := inv.queueMem m hmem
  have hrem : 0 < m.2 ∧ m.2 + 1 < cell.length := by
    have h := hrem0
    rw [inv.removableEq, ofIds_removable] at h
    exact of_decide_eq_true h
  obtain ⟨A, B, hL⟩ := List.append_of_mem hidxL
  have hndL : L.Nodup := inv.sorted.nodup
  have hA : A ≠ [] := by
    rintro rfl
    have h0 := inv.headL
    rw [hL] at h0
    simp only [List.nil_append, List.head?_cons, Option.some.injEq] at h0
    omega
  have hB : B ≠ [] := by
    rintro rfl
    have h0 := inv.lastL
    rw [hL, List.getLast?_concat A] at h0
    simp only [Option.some.injEq] at h0
    omega
  obtain ⟨pr, hpr⟩ := Option.isSome_iff_exists.mp (List.getLast?_isSome.mpr hA)
  obtain ⟨nx, hnx⟩ := Option.isSome_iff_exists.mp (List.head?_isSome.mpr hB)
  have hprA : pr ∈ A := List.mem_of_mem_getLast? (Option.mem_def.mpr hpr)
  have hnxB : nx ∈ B := List.mem_of_mem_head? (Option.mem_def.mpr hnx)
  obtain ⟨lkA, lkB⟩ := linked_of_append s.poly inv.chain hL
  have hlink1 : Linked s.poly pr m.2 := lkA pr hpr
  have hlink2 : Linked s.poly m.2 nx := lkB nx hnx
  have hsplit : (∀ a ∈ A, a < m.2) ∧ ∀ b ∈ B, m.2 < b := by
    have h := inv.sorted
    rw [hL, List.Sorted, List.pairwise_append] at h
    exact ⟨fun a ha => h.2.2 a ha m.2 (by simp),
      fun b hb => (List.pairwise_cons.mp h.2.1).1 b hb⟩
  have hprlt : pr < m.2 := hsplit.1 pr hprA
  have hnxgt : m.2 < nx := hsplit.2 nx hnxB
  have hnodupParts : m.2 ∉ A ∧ m.2 ∉ B ∧ List.Disjoint A (m.2 :: B) := by
    have h := hndL
    rw [hL, List.nodup_append] at h
    exact ⟨fun hx => h.2.2 hx (by simp), (List.nodup_cons.mp h.2.1).1, h.2.2⟩
  have hABdisj : ∀ a ∈ A, a ∉ B := fun a ha hb =>
    hnodupParts.2.2 ha (List.mem_cons_of_mem _ hb)
  -- the links of the spliced arena
  have hgpr : (s.poly.prev m.2).getD 0 = pr := by rw [hlink1.2]; rfl
  have hgnx : (s.poly.next m.2).getD 0 = nx := by rw [hlink2.1]; rfl
  have hN : ∀ j, (s.poly.Remove m.2).next j =
      if j = pr then s.poly.next m.2 else s.poly.next j := by
    intro j
    rw [Remove_next, hgpr]
  have hP : ∀ j, (s.poly.Remove m.2).prev j =
      if j = nx then s.poly.prev m.2 else s.poly.prev j := by
    intro j
    rw [Remove_prev, hgnx]
  have hNne : ∀ j, j ≠ pr → (s.poly.Remove m.2).next j = s.poly.next j := by
    intro j hj
    rw [hN j, if_neg hj]
  have hPne : ∀ j, j ≠ nx → (s.poly.Remove m.2).prev j = s.poly.prev j := by
    intro j hj
    rw [hP j, if_neg hj]
  have hp2prev : (s.poly.Remove m.2).prev m.2 = some pr := by
    rw [hP m.2]
    split <;> exact hlink1.2
  have hp2next : (s.poly.Remove m.2).next m.2 = some nx := by
    rw [hN m.2]
    split <;> exact hlink2.1
  have hchainsplit : List.Chain' (Linked s.poly) A ∧ List.Chain' (Linked s.poly) B := by
    have h := inv.chain
    rw [hL, List.chain'_append] at h
    exact ⟨h.1, (List.chain'_cons'.mp h.2.1).2⟩
  have hchain2 : List.Chain' (Linked (s.poly.Remove m.2)) (A ++ B) := by
    rw [List.chain'_append]
    refine ⟨?_, ?_, ?_⟩
    · refine chain'_imp_mem hchainsplit.1 ?_
      intro x hx y hy hr
      have hxne : x ≠ pr := by
        rintro rfl
        have h1 := hr.1
        rw [hlink1.1] at h1
        obtain rfl : m.2 = y := Option.some.inj h1
        exact hnodupParts.1 hy
      have hyne : y ≠ nx := fun hc => hABdisj y hy (hc ▸ hnxB)
      exact ⟨(hNne x hxne) ▸ hr.1, (hPne y hyne) ▸ hr.2⟩
    · refine chain'_imp_mem hchainsplit.2 ?_
      intro x hx y hy hr
      have hxne : x ≠ pr := fun hc => hABdisj pr hprA (hc ▸ hx)
      have hyne : y ≠ nx := by
        rintro rfl
        have h1 := hr.2
        rw [hlink2.2] at h1
        obtain rfl : m.2 = x := Option.some.inj h1
        exact hnodupParts.2.1 hx
      exact ⟨(hNne x hxne) ▸ hr.1, (hPne y hyne) ▸ hr.2⟩
    · intro a ha b hb
      rw [Option.mem_def, hpr, Option.some.injEq] at ha
      rw [Option.mem_def, hnx, Option.some.injEq] at hb
      subst ha
      subst hb
      constructor
      · rw [hN pr, if_pos rfl]
        exact hlink2.1
      · rw [hP nx, if_pos rfl]
        exact hlink1.2
  -- ends of the new live list
  have hhead2 : (A ++ B).head? = some 0 := by
    cases A with
    | nil => exact absurd rfl hA
    | cons a t =>
      have h0 := inv.headL
      rw [hL] at h0
      simp only [List.cons_append, List.head?_cons, Option.some.injEq] at h0
      simp [h0]
  have hlast2 : (A ++ B).getLast? = some (cell.length - 1) := by
    rw [List.getLast?_append_of_ne_nil A hB]
    have h0 := inv.lastL
    rw [hL, List.getLast?_append_of_ne_nil A (by simp)] at h0
    cases B with
    | nil => exact absurd rfl hB
    | cons b t =>
      rw [List.getLast?_cons_cons] at h0
      exact h0
  have hinterior : ∀ j, j ∈ A ++ B → 0 < j → j + 1 < cell.length →
      ∃ a b, (s.poly.Remove m.2).prev j = some a ∧ (s.poly.Remove m.2).next j = some b := by
    intro j hj hj0 hjn
    refine links_isSome_of_interior _ hchain2 hj ?_ ?_
    · rw [hhead2]
      simp only [ne_eq, Option.some.injEq]
      omega
    · rw [hlast2]
      simp only [ne_eq, Option.some.injEq]
      omega
  have hremEq : (s.poly.Remove m.2).removable = s.poly.removable := Remove_removable _ _
  have hmemAB : ∀ j, j ∈ L → j ≠ m.2 → j ∈ A ++ B := by
    intro j hj hne
    rw [hL] at hj
    rcases List.mem_append.mp hj with h | h
    · exact List.mem_append.mpr (Or.inl h)
    · rcases List.mem_cons.mp h with h | h
      · exact absurd h hne
      · exact List.mem_append.mpr (Or.inr h)
  have hmemL : ∀ j, j ∈ A ++ B → j ∈ L := by
    intro j hj
    rw [hL]
    rcases List.mem_append.mp hj with h | h
    · exact List.mem_append.mpr (Or.inl h)
    · exact List.mem_append.mpr (Or.inr (List.mem_cons_of_mem _ h))
  have hlive1 : s.live m.2 = true := (inv.liveIff m.2).mpr hidxL
  have hlive2 : s.live pr = true := (inv.liveIff pr).mpr (hmemL pr (List.mem_append.mpr (Or.inl hprA)))
  have hlive3 : s.live nx = true := (inv.liveIff nx).mpr (hmemL nx (List.mem_append.mpr (Or.inr hnxB)))
  -- projections of the successor state
  have hEpoly : (reduceStep cfg pts { s with queue := pqRemoveFirst s.queue m } m.2).poly
      = s.poly.Remove m.2 := rfl
  have hEcur : (reduceStep cfg pts { s with queue := pqRemoveFirst s.queue m } m.2).cur
      = s.cur - 1 := rfl
  have hElive : (reduceStep cfg pts { s with queue := pqRemoveFirst s.queue m } m.2).live
      = fun j => if j = m.2 then false else s.live j := rfl
  have hEqueue : (reduceStep cfg pts { s with queue := pqRemoveFirst s.queue m } m.2).queue
      = refreshNeighbor cfg pts (s.poly.Remove m.2)
          (refreshNeighbor cfg pts (s.poly.Remove m.2) (pqRemoveFirst s.queue m) pr) nx := by
    show refreshNeighbor cfg pts (s.poly.Remove m.2)
        (refreshNeighbor cfg pts (s.poly.Remove m.2) (pqRemoveFirst s.queue m)
          (((s.poly.Remove m.2).prev m.2).getD 0))
        (((s.poly.Remove m.2).next m.2).getD 0) = _
    rw [hp2prev, hp2next]
    simp only [Option.getD_some]
  have hEsafe : (reduceStep cfg pts { s with queue := pqRemoveFirst s.queue m } m.2).safe
      = (s.safe && popCheck { s with queue := pqRemoveFirst s.queue m } m.2) := rfl
  -- the ghost check holds
  have hcheck : popCheck { s with queue := pqRemoveFirst s.queue m } m.2 = true := by
    have hg1 : (!(s.poly.Remove m.2).removable pr ||
        (((s.poly.Remove m.2).prev pr).isSome && ((s.poly.Remove m.2).next pr).isSome)) = true := by
      rcases Bool.eq_false_or_eq_true ((s.poly.Remove m.2).removable pr) with h | h
      · have hb : 0 < pr ∧ pr + 1 < cell.length := by
          rw [hremEq, inv.removableEq, ofIds_removable] at h
          exact of_decide_eq_true h
        obtain ⟨a, b, h1, h2⟩ := hinterior pr (List.mem_append.mpr (Or.inl hprA)) hb.1 hb.2
        simp [h1, h2]
      · simp [h]
    have hg2 : (!(s.poly.Remove m.2).removable nx ||
        (((s.poly.Remove m.2).prev nx).isSome && ((s.poly.Remove m.2).next nx).isSome)) = true := by
      rcases Bool.eq_false_or_eq_true ((s.poly.Remove m.2).removable nx) with h | h
      · have hb : 0 < nx ∧ nx + 1 < cell.length := by
          rw [hremEq, inv.removableEq, ofIds_removable] at h
          exact of_decide_eq_true h
        obtain ⟨a, b, h1, h2⟩ := hinterior nx (List.mem_append.mpr (Or.inr hnxB)) hb.1 hb.2
        simp [h1, h2]
      · simp [h]
    simp only [popCheck]
    rw [hp2prev, hp2next]
    simp only [Option.getD_some]
    simp [hrem0, hlink1.2, hlink2.1, hlive1, hlive2, hlive3, hg1, hg2]
  -- queue facts
  have hqp : ∀ e ∈ pqRemoveFirst s.queue m, e ∈ s.queue ∧ e.2 ≠ m.2 := fun e he =>
    ⟨pqRemoveFirst_mem he, pqRemoveFirst_ne inv.queueNodup hmem he⟩
  have hqpnd : ((pqRemoveFirst s.queue m).map Prod.snd).Nodup :=
    List.Nodup.sublist ((pqRemoveFirst_sublist s.queue m).map Prod.snd) inv.queueNodup
  have hfreshKeep : ∀ (e : ℚ × ℕ), e.2 ≠ pr → e.2 ≠ nx →
      computeError pts (s.poly.Remove m.2) e.2 = computeError pts s.poly e.2 := by
    intro e hepr henx
    exact computeError_congr (Remove_ids _ _) (hPne e.2 henx) (hNne e.2 hepr)
  refine ⟨A ++ B, ?_, ?_⟩
  swap
  · rw [hL]
    simp only [List.length_append, List.length_cons]
    omega
  constructor
  case sorted =>
    exact List.Pairwise.sublist
      (List.Sublist.append (List.Sublist.refl A) (List.sublist_cons_self m.2 B))
      (hL ▸ inv.sorted)
  case liveIff =>
    intro j
    rw [hElive]
    rcases eq_or_ne j m.2 with rfl | hj
    · simp only [if_pos rfl]
      constructor
      · intro h
        exact absurd h (by simp)
      · intro h
        rcases List.mem_append.mp h with h | h
        · exact absurd h hnodupParts.1
        · exact absurd h hnodupParts.2.1
    · simp only [if_neg hj]
      rw [inv.liveIff j]
      exact ⟨fun h => hmemAB j h hj, fun h => hmemL j h⟩
  case headL => exact hhead2
  case lastL => exact hlast2
  case chain =>
    rw [hEpoly]
    exact hchain2
  case lastNext =>
    rw [hEpoly]
    have hne : cell.length - 1 ≠ pr := by omega
    rw [hNne _ hne]
    exact inv.lastNext
  case memLt =>
    intro j hj
    exact inv.memLt j (hmemL j hj)
  case keepNR =>
    intro j hjlt hjr
    rw [hEpoly, hremEq] at hjr
    have hjL := inv.keepNR j hjlt hjr
    have hjne : j ≠ m.2 := by
      rintro rfl
      rw [hjr] at hrem0
      exact Bool.false_ne_true hrem0
    exact hmemAB j hjL hjne
  case curEq =>
    rw [hEcur]
    have h := inv.curEq
    rw [hL] at h
    simp only [List.length_append, List.length_cons] at h
    simp only [List.length_append]
    omega
  case queueMem =>
    intro e he
    rw [hEqueue] at he
    rw [hEpoly]
    have main : (e ∈ pqRemoveFirst s.queue m ∧ e.2 ≠ pr ∧ e.2 ≠ nx) ∨
        ((e = (computeError pts (s.poly.Remove m.2) pr, pr) ∧
            (s.poly.Remove m.2).removable pr = true ∧ e.1 ≤ cfg.maximumError) ∨
          (e = (computeError pts (s.poly.Remove m.2) nx, nx) ∧
            (s.poly.Remove m.2).removable nx = true ∧ e.1 ≤ cfg.maximumError)) := by
      rcases refreshNeighbor_mem he with ⟨he3, hnenx⟩ | hins
      · rcases refreshNeighbor_mem he3 with ⟨he4, hnepr⟩ | hins
        · have holdq := hqp e he4
          have holdrem : s.poly.removable e.2 = true := (inv.queueMem e holdq.1).2.1
          have hepr : e.2 ≠ pr := by
            by_cases hc : (s.poly.Remove m.2).removable pr = true
            · exact hnepr hc
            · rintro rfl
              rw [hremEq] at hc
              exact hc holdrem
          have henx : e.2 ≠ nx := by
            by_cases hc : (s.poly.Remove m.2).removable nx = true
            · exact hnenx hc
            · rintro rfl
              rw [hremEq] at hc
              exact hc holdrem
          exact Or.inl ⟨he4, hepr, henx⟩
        · exact Or.inr (Or.inl hins)
      · exact Or.inr (Or.inr hins)
    rcases main with ⟨he4, hepr, henx⟩ | ⟨heq, hrm, hle⟩ | ⟨heq, hrm, hle⟩
    · have holdq := hqp e he4
      obtain ⟨heL, herem, hefresh, hele⟩ := inv.queueMem e holdq.1
      refine ⟨hmemAB e.2 heL holdq.2, ?_, ?_, hele⟩
      · rw [hremEq]
        exact herem
      · rw [hfreshKeep e hepr henx]
        exact hefresh
    · subst heq
      exact ⟨List.mem_append.mpr (Or.inl hprA), hrm, rfl, hle⟩
    · subst heq
      exact ⟨List.mem_append.mpr (Or.inr hnxB), hrm, rfl, hle⟩
  case queueNodup =>
    rw [hEqueue]
    exact refreshNeighbor_nodup (refreshNeighbor_nodup hqpnd)
  case safeEq =>
    rw [hEsafe, hcheck]
    simp [inv.safeEq]
  case idsEq =>
    rw [hEpoly, Remove_ids]
    exact inv.idsEq
  case removableEq =>
    rw [hEpoly, hremEq]
    exact inv.removableEq
  case isLoopEq =>
    rw [hEpoly, Remove_isLoop]
    exact inv.isLoopEq

/-! ## The reduction loop preserves the invariant -/

theorem loopInv_reduceLoop {pts : List Point3} {cfg : Config} {cell : List ℕ} (n0 : ℕ) :
    ∀ (fuel : ℕ) (s : ReduceState) (L : List ℕ), LoopInv pts cfg cell s L →
      ∃ L2, LoopInv pts cfg cell (reduceLoop cfg pts n0 fuel s) L2 := by
  intro fuel
  induction fuel with
  | zero => exact fun s L h => ⟨L, h⟩
  | succ f ih =>
    intro s L h
    rw [reduceLoop]
    by_cases hg : loopGuard cfg n0 s = true
    · rw [if_pos hg]
      rcases hp : pqPop s.queue with ⟨o, q2⟩
      cases o with
      | none => exact ⟨L, h⟩
      | some idx =>
        obtain ⟨L2, h2, _⟩ := loopInv_step h hp
        exact ih _ L2 h2
    · rw [if_neg hg]
      exact ⟨L, h⟩

theorem reduceLoop_errs_zero {pts : List Point3} {cfg : Config} {cell : List ℕ}
    (hmax : cfg.maximumError = 0) (n0 : ℕ) :
    ∀ (fuel : ℕ) (s : ReduceState) (L : List ℕ), LoopInv pts cfg cell s L →
      (∀ x ∈ s.errs, x = 0) → ∀ x ∈ (reduceLoop cfg pts n0 fuel s).errs, x = 0 := by
  intro fuel
  induction fuel with
  | zero => exact fun s L _ h0 => h0
  | succ f ih =>
    intro s L h h0
    rw [reduceLoop]
    by_cases hg : loopGuard cfg n0 s = true
    · rw [if_pos hg]
      rcases hp : pqPop s.queue with ⟨o, q2⟩
      cases o with
      | none => exact h0
      | some idx =>
        obtain ⟨L2, h2, _⟩ := loopInv_step h hp
        refine ih _ L2 h2 ?_
        obtain ⟨m, hmin, hm2, hq2⟩ := pqPop_some hp
        have hmem : m ∈ s.queue := pqMinEntry_mem hmin
        obtain ⟨_, _, hfresh, hle⟩ := h.queueMem m hmem
        have herreq : (reduceStep cfg pts { s with queue := q2 } idx).errs
            = s.errs ++ [computeError pts s.poly idx] := rfl
        rw [herreq]
        intro x hx
        rcases List.mem_append.mp hx with hx | hx
        · exact h0 x hx
        · simp only [List.mem_singleton] at hx
          subst hx
          subst hm2
          have h1 : computeError pts s.poly m.2 ≤ 0 := by
            rw [← hfresh]
            rw [hmax] at hle
            exact hle
          exact le_antisymm h1 (computeError_nonneg pts s.poly m.2)
    · rw [if_neg hg]
      exact h0

theorem reduceLoop_cur_le (cfg : Config) (pts : List Point3) (n0 : ℕ) :
    ∀ (fuel : ℕ) (s : ReduceState), (reduceLoop cfg pts n0 fuel s).cur ≤ s.cur := by
  intro fuel
  induction fuel with
  | zero => exact fun s => le_refl _
  | succ f ih =>
    intro s
    rw [reduceLoop]
    by_cases hg : loopGuard cfg n0 s = true
    · rw [if_pos hg]
      rcases hp : pqPop s.queue with ⟨o, q2⟩
      cases o with
      | none => exact le_refl _
      | some idx =>
        refine le_trans (ih _) ?_
        show s.cur - 1 ≤ s.cur
        omega
    · rw [if_neg hg]

theorem reduceLoop_cur_lower (cfg : Config) (pts : List Point3) (n0 : ℕ) :
    ∀ (fuel : ℕ) (s : ReduceState),
      (if s.poly.isLoop then min 3 s.cur else min 2 s.cur) ≤ (reduceLoop cfg pts n0 fuel s).cur := by
  intro fuel
  induction fuel with
  | zero =>
    intro s
    split <;> exact min_le_right _ _
  | succ f ih =>
    intro s
    rw [reduceLoop]
    by_cases hg : loopGuard cfg n0 s = true
    · rw [if_pos hg]
      rcases hp : pqPop s.queue with ⟨o, q2⟩
      cases o with
      | none =>
        show (if s.poly.isLoop = true then 3 ⊓ s.cur else 2 ⊓ s.cur) ≤ s.cur
        split <;> exact min_le_right _ _
      | some idx =>
        have hguard : (s.poly.isLoop = false ∧ 2 < s.cur) ∨ (s.poly.isLoop = true ∧ 3 < s.cur) := by
          simp only [loopGuard, Bool.and_eq_true, Bool.or_eq_true, decide_eq_true_eq,
            Bool.not_eq_true'] at hg
          tauto
        have hstep := ih (reduceStep cfg pts { s with queue := q2 } idx)
        have hsl : (reduceStep cfg pts { s with queue := q2 } idx).poly.isLoop
            = s.poly.isLoop := rfl
        have hsc : (reduceStep cfg pts { s with queue := q2 } idx).cur = s.cur - 1 := rfl
        rw [hsl, hsc] at hstep
        rcases hguard with ⟨hl, hc⟩ | ⟨hl, hc⟩
        · simp only [hl, Bool.false_eq_true, if_false] at hstep ⊢
          omega
        · simp only [hl, if_true] at hstep ⊢
          omega
    · rw [if_neg hg]
      split <;> exact min_le_right _ _

theorem reduceLoop_empty_queue (cfg : Config) (pts : List Point3) (n0 : ℕ) (fuel : ℕ)
    (s : ReduceState) (h : s.queue = []) : reduceLoop cfg pts n0 fuel s = s := by
  cases fuel with
  | zero => rfl
  | succ f =>
    rw [reduceLoop]
    by_cases hg : loopGuard cfg n0 s = true
    · rw [if_pos hg, h]
      rfl
    · rw [if_neg hg]

/-! ## Per-polyline corollaries -/

theorem reduceCell_inv {pts : List Point3} {cfg : Config} {cell : List ℕ} (hcell : cell ≠ []) :
    ∃ L, LoopInv pts cfg cell (reduceCell cfg pts cell) L :=
  loopInv_reduceLoop cell.length cell.length _ _ (loopInv_init pts cfg cell hcell)

theorem walk_final {pts : List Point3} {cfg : Config} {cell : List ℕ} {s : ReduceState}
    {L : List ℕ} (hL : LoopInv pts cfg cell s L) :
    walkIdx s.poly cell.length (some 0) = L := by
  have hfuel : L.length ≤ cell.length := length_le_of_nodup_lt hL.sorted.nodup hL.memLt
  have hlastnone : ∀ a, L.getLast? = some a → s.poly.next a = none := by
    intro a ha
    rw [hL.lastL] at ha
    obtain rfl : cell.length - 1 = a := Option.some.inj ha
    exact hL.lastNext
  have h := walk_of_chain s.poly L cell.length hL.chain hlastnone hfuel
  rw [hL.headL] at h
  exact h

theorem survivorIds_spec {cfg : Config} {pts : List Point3} {cell : List ℕ} (hcell : cell ≠ []) :
    ∃ L, LoopInv pts cfg cell (reduceCell cfg pts cell) L ∧
      survivorIds cfg pts cell = L.map (fun i => cell.getD i 0) := by
  obtain ⟨L, h⟩ := @reduceCell_inv pts cfg cell hcell
  refine ⟨L, h, ?_⟩
  show (walkIdx (reduceCell cfg pts cell).poly cell.length (some 0)).map
      (reduceCell cfg pts cell).poly.ids = _
  rw [walk_final h, h.idsEq]
  rfl

theorem head?_eq_getD {cell : List ℕ} (h : cell ≠ []) : cell.head? = some (cell.getD 0 0) := by
  cases cell with
  | nil => exact absurd rfl h
  | cons a t => rfl

theorem getLast?_eq_getD {cell : List ℕ} (h : cell ≠ []) :
    cell.getLast? = some (cell.getD (cell.length - 1) 0) := by
  have hlen : cell.length - 1 < cell.length := by
    have := List.length_pos.mpr h
    omega
  rw [List.getLast?_eq_getElem? cell, List.getElem?_eq_getElem hlen,
    List.getD_eq_getElem?_getD cell _ 0, List.getElem?_eq_getElem hlen]
  rfl

theorem map_getD_range (cell : List ℕ) :
    (List.range cell.length).map (fun i => cell.getD i 0) = cell := by
  apply List.ext_getElem
  · simp
  · intro i h1 h2
    simp only [List.getElem_map, List.getElem_range]
    rw [List.getD_eq_getElem?_getD, List.getElem?_eq_getElem h2]
    rfl

theorem survivorIds_head_last (cfg : Config) (pts : List Point3) (cell : List ℕ)
    (hcell : cell ≠ []) :
    survivorIds cfg pts cell ≠ [] ∧
      (survivorIds cfg pts cell).head? = cell.head? ∧
      (survivorIds cfg pts cell).getLast? = cell.getLast? := by
  obtain ⟨L, hL, heq⟩ := @survivorIds_spec cfg pts cell hcell
  have hnn : L ≠ [] := by
    intro hc
    have h0 := hL.headL
    rw [hc] at h0
    simp at h0
  refine ⟨?_, ?_, ?_⟩
  · rw [heq]
    simpa using hnn
  · rw [heq, List.head?_map, hL.headL, head?_eq_getD hcell]
    rfl
  · rw [heq, List.getLast?_map, hL.lastL, getLast?_eq_getD hcell]
    rfl

theorem survivorIds_length_le (cfg : Config) (pts : List Point3) (cell : List ℕ) :
    (survivorIds cfg pts cell).length ≤ cell.length := by
  rcases eq_or_ne cell [] with rfl | h
  · exact le_refl 0
  · obtain ⟨L, hL, heq⟩ := @survivorIds_spec cfg pts cell h
    rw [heq, List.length_map]
    exact length_le_of_nodup_lt hL.sorted.nodup hL.memLt

theorem survivorIds_length_eq_cur (cfg : Config) (pts : List Point3) (cell : List ℕ)
    (h : cell ≠ []) :
    (survivorIds cfg pts cell).length = (reduceCell cfg pts cell).cur := by
  obtain ⟨L, hL, heq⟩ := @survivorIds_spec cfg pts cell h
  rw [heq, List.length_map, hL.curEq]

theorem ofIds_isLoop_open_length {cell : List ℕ} (h : (Polyline.ofIds cell).isLoop = false) :
    2 ≤ cell.length := by
  rcases cell with _ | ⟨a, _ | ⟨b, t⟩⟩
  · simp [Polyline.ofIds] at h
  · simp [Polyline.ofIds] at h
  · simp only [List.length_cons]
    omega

theorem survivorIds_lower (cfg : Config) (pts : List Point3) (cell : List ℕ)
    (hcell : cell ≠ []) :
    ((Polyline.ofIds cell).isLoop = false → 2 ≤ (survivorIds cfg pts cell).length) ∧
      ((Polyline.ofIds cell).isLoop = true →
        min 3 cell.length ≤ (survivorIds cfg pts cell).length) := by
  rw [survivorIds_length_eq_cur cfg pts cell hcell]
  have hlow := reduceLoop_cur_lower cfg pts cell.length cell.length
    (initialReduceState pts cfg cell)
  have hil : (initialReduceState pts cfg cell).poly.isLoop = (Polyline.ofIds cell).isLoop := rfl
  have hic : (initialReduceState pts cfg cell).cur = cell.length := rfl
  rw [hil, hic] at hlow
  constructor
  · intro hopen
    have h2 := ofIds_isLoop_open_length hopen
    simp only [hopen, Bool.false_eq_true, if_false] at hlow
    have hcc : (reduceCell cfg pts cell).cur
        = (reduceLoop cfg pts cell.length cell.length (initialReduceState pts cfg cell)).cur :=
      rfl
    rw [hcc]
    omega
  · intro hloop
    simp only [hloop, if_true] at hlow
    exact hlow

/-! ## Zero target reduction -/

theorem reduceLoop_guard_false {cfg : Config} {pts : List Point3} {n0 fuel : ℕ}
    {s : ReduceState} (h : loopGuard cfg n0 s = false) :
    reduceLoop cfg pts n0 fuel s = s := by
  cases fuel with
  | zero => rfl
  | succ f =>
    rw [reduceLoop, if_neg]
    rw [h]
    exact Bool.false_ne_true

theorem loopGuard_false_of_TR0 {cfg : Config} {n0 : ℕ} {s : ReduceState}
    (hTR : cfg.targetReduction = 0) (hcur : s.cur = n0) : loopGuard cfg n0 s = false := by
  rw [loopGuard, hTR]
  have hlt : ¬(1 - (s.cur : ℚ) / (n0 : ℚ) < 0) := by
    rw [hcur]
    rcases eq_or_ne n0 0 with rfl | h
    · simp
    · rw [div_self (by exact_mod_cast h)]
      simp
  simp [hlt]

theorem reduceCell_TR0 {cfg : Config} {pts : List Point3} {cell : List ℕ}
    (hTR : cfg.targetReduction = 0) :
    reduceCell cfg pts cell = initialReduceState pts cfg cell :=
  reduceLoop_guard_false (loopGuard_false_of_TR0 hTR rfl)

theorem survivorIds_TR0 {cfg : Config} {pts : List Point3} (cell : List ℕ)
    (hTR : cfg.targetReduction = 0) : survivorIds cfg pts cell = cell := by
  rcases eq_or_ne cell [] with rfl | h
  · rfl
  · show (walkIdx (reduceCell cfg pts cell).poly cell.length (some 0)).map
      (reduceCell cfg pts cell).poly.ids = cell
    rw [reduceCell_TR0 hTR, walk_final (loopInv_init pts cfg cell h)]
    exact map_getD_range cell

/-! ## Per-polyline safety and removal-error facts -/

theorem reduceCell_safe (cfg : Config) (pts : List Point3) (cell : List ℕ) :
    (reduceCell cfg pts cell).safe = true := by
  rcases eq_or_ne cell [] with rfl | h
  · rfl
  · obtain ⟨L, hL⟩ := @reduceCell_inv pts cfg cell h
    exact hL.safeEq

theorem reduceCell_errs_zero (cfg : Config) (pts : List Point3) (cell : List ℕ)
    (hmax : cfg.maximumError = 0) : ∀ x ∈ (reduceCell cfg pts cell).errs, x = 0 := by
  rcases eq_or_ne cell [] with rfl | h
  · intro x hx
    exact absurd hx (List.not_mem_nil x)
  · exact reduceLoop_errs_zero hmax cell.length cell.length _ _ (loopInv_init pts cfg cell h)
      (fun x hx => absurd hx (List.not_mem_nil x))

/-! ## The output assembler, cell by cell -/

theorem emit_fold_fields (pts : List Point3) :
    ∀ (l : List ℕ) (st : OutState) (c o : List ℕ),
      ((l.foldl (emitId pts) (st, c, o)).1.cells = st.cells) ∧
        ((l.foldl (emitId pts) (st, c, o)).1.cellsOrig = st.cellsOrig) ∧
        ((l.foldl (emitId pts) (st, c, o)).1.cdCopies = st.cdCopies) ∧
        ((l.foldl (emitId pts) (st, c, o)).1.safe = st.safe) ∧
        ((l.foldl (emitId pts) (st, c, o)).1.removalErrors = st.removalErrors) ∧
        ((l.foldl (emitId pts) (st, c, o)).2.2 = o ++ l) := by
  intro l
  induction l with
  | nil =>
    intro st c o
    simp
  | cons a t ih =>
    intro st c o
    rw [List.foldl_cons]
    rcases hlk : lookupId st.pointIdMap a with _ | nid
    · have he : emitId pts (st, c, o) a =
          ({ st with
              pts := st.pts ++ [pointOf pts a]
              pdCopies := st.pdCopies ++ [(a, st.pts.length)]
              pointIdMap := st.pointIdMap ++ [(a, st.pts.length)] },
            c ++ [st.pts.length], o ++ [a]) := by
        simp [emitId, hlk]
      rw [he]
      obtain ⟨h1, h2, h3, h4, h5, h6⟩ := ih _ _ _
      exact ⟨h1, h2, h3, h4, h5, by rw [h6]; simp⟩
    · have he : emitId pts (st, c, o) a = (st, c ++ [nid], o ++ [a]) := by
        simp [emitId, hlk]
      rw [he]
      obtain ⟨h1, h2, h3, h4, h5, h6⟩ := ih _ _ _
      exact ⟨h1, h2, h3, h4, h5, by rw [h6]; simp⟩

theorem processPolyline_fields (cfg : Config) (pts : List Point3) (acc : OutState × ℕ)
    (cell : List ℕ) :
    ((processPolyline cfg pts acc cell).1.cellsOrig
        = acc.1.cellsOrig ++ [survivorIds cfg pts cell]) ∧
      ((processPolyline cfg pts acc cell).1.cells.length = acc.1.cells.length + 1) ∧
      ((processPolyline cfg pts acc cell).1.cdCopies
        = acc.1.cdCopies ++ [(acc.2, acc.1.cells.length)]) ∧
      ((processPolyline cfg pts acc cell).1.safe
        = (acc.1.safe && (reduceCell cfg pts cell).safe)) ∧
      ((processPolyline cfg pts acc cell).1.removalErrors
        = acc.1.removalErrors ++ (reduceCell cfg pts cell).errs) ∧
      ((processPolyline cfg pts acc cell).2 = acc.2 + cell.length) := by
  obtain ⟨h1, h2, h3, h4, h5, h6⟩ := emit_fold_fields pts (survivorIds cfg pts cell)
    { acc.1 with
        cdCopies := acc.1.cdCopies ++ [(acc.2, acc.1.cells.length)]
        safe := acc.1.safe && (reduceCell cfg pts cell).safe
        removalErrors := acc.1.removalErrors ++ (reduceCell cfg pts cell).errs } [] []
  simp only [processPolyline]
  refine ⟨?_, ?_, ?_, ?_, ?_, ?_⟩
  case refine_6 => trivial
  · rw [h2, h6]
    simp
  · rw [h1]
    simp
  · rw [h3]
  · rw [h4]
  · rw [h5]

theorem fold_cellsOrig (cfg : Config) (pts : List Point3) :
    ∀ (cells : List (List ℕ)) (acc : OutState × ℕ),
      ((cells.foldl (processPolyline cfg pts) acc).1).cellsOrig
        = acc.1.cellsOrig ++ cells.map (survivorIds cfg pts) := by
  intro cells
  induction cells with
  | nil =>
    intro acc
    simp
  | cons c t ih =>
    intro acc
    rw [List.foldl_cons, ih (processPolyline cfg pts acc c),
      (processPolyline_fields cfg pts acc c).1]
    simp

theorem fold_safe (cfg : Config) (pts : List Point3) :
    ∀ (cells : List (List ℕ)) (acc : OutState × ℕ), acc.1.safe = true →
      ((cells.foldl (processPolyline cfg pts) acc).1).safe = true := by
  intro cells
  induction cells with
  | nil => exact fun acc h => h
  | cons c t ih =>
    intro acc h
    rw [List.foldl_cons]
    refine ih (processPolyline cfg pts acc c) ?_
    rw [(processPolyline_fields cfg pts acc c).2.2.2.1, h, reduceCell_safe]
    rfl

theorem fold_errs_zero (cfg : Config) (pts : List Point3) (hmax : cfg.maximumError = 0) :
    ∀ (cells : List (List ℕ)) (acc : OutState × ℕ),
      (∀ x ∈ acc.1.removalErrors, x = 0) →
      ∀ x ∈ ((cells.foldl (processPolyline cfg pts) acc).1).removalErrors, x = 0 := by
  intro cells
  induction cells with
  | nil => exact fun acc h => h
  | cons c t ih =>
    intro acc h
    rw [List.foldl_cons]
    refine ih (processPolyline cfg pts acc c) ?_
    rw [(processPolyline_fields cfg pts acc c).2.2.2.2.1]
    intro x hx
    rcases List.mem_append.mp hx with hx | hx
    · exact h x hx
    · exact reduceCell_errs_zero cfg pts c hmax x hx

theorem fold_cells_length (cfg : Config) (pts : List Point3) :
    ∀ (cells : List (List ℕ)) (acc : OutState × ℕ),
      ((cells.foldl (processPolyline cfg pts) acc).1).cells.length
        = acc.1.cells.length + cells.length := by
  intro cells
  induction cells with
  | nil =>
    intro acc
    simp
  | cons c t ih =>
    intro acc
    rw [List.foldl_cons, ih (processPolyline cfg pts acc c),
      (processPolyline_fields cfg pts acc c).2.1]
    simp only [List.length_cons]
    omega

/-! ## Projections of the whole run -/

theorem RequestData_cellsOrig (cfg : Config) (input : InputPolyData)
    (hpts : input.points ≠ []) :
    (RequestData cfg input).1.cellsOrig = input.lines.map (survivorIds cfg input.points) := by
  rw [RequestData]
  by_cases h : input.lines.length < 1 ∨ input.points.length < 1
  · have hlines : input.lines = [] := by
      rcases h with h | h
      · exact List.length_eq_zero.mp (by omega)
      · exact absurd (List.length_pos.mpr hpts) (by omega)
    rw [if_pos h, hlines]
    rfl
  · rw [if_neg h, fold_cellsOrig]
    rfl

theorem RequestData_safe (cfg : Config) (input : InputPolyData) :
    (RequestData cfg input).1.safe = true := by
  rw [RequestData]
  by_cases h : input.lines.length < 1 ∨ input.points.length < 1
  · rw [if_pos h]
    rfl
  · rw [if_neg h]
    exact fold_safe cfg input.points input.lines (emptyOutState, 0) rfl

theorem RequestData_errs_zero (cfg : Config) (input : InputPolyData)
    (hmax : cfg.maximumError = 0) :
    ∀ x ∈ (RequestData cfg input).1.removalErrors, x = 0 := by
  rw [RequestData]
  by_cases h : input.lines.length < 1 ∨ input.points.length < 1
  · rw [if_pos h]
    intro x hx
    exact absurd hx (List.not_mem_nil x)
  · rw [if_neg h]
    exact fold_errs_zero cfg input.points hmax input.lines (emptyOutState, 0)
      (fun x hx => absurd hx (List.not_mem_nil x))

theorem RequestData_code (cfg : Config) (input : InputPolyData) :
    (RequestData cfg input).2 = 1 := by
  rw [RequestData]
  split <;> rfl

theorem RequestData_cells_length (cfg : Config) (input : InputPolyData)
    (hpts : input.points ≠ []) :
    (RequestData cfg input).1.cells.length = input.lines.length := by
  rw [RequestData]
  by_cases h : input.lines.length < 1 ∨ input.points.length < 1
  · have hlines : input.lines = [] := by
      rcases h with h | h
      · exact List.length_eq_zero.mp (by omega)
      · exact absurd (List.length_pos.mpr hpts) (by omega)
    rw [if_pos h, hlines]
    rfl
  · rw [if_neg h, fold_cells_length]
    simp [emptyOutState]

theorem map_getD_lists (f : List ℕ → List ℕ) (l : List (List ℕ)) (k : ℕ) (hk : k < l.length) :
    (l.map f).getD k [] = f (l.getD k []) := by
  rw [List.getD_eq_getElem?_getD, List.getD_eq_getElem?_getD, List.getElem?_map,
    List.getElem?_eq_getElem hk]
  rfl

/-! ## Claims -/

/-- C1: the per-cell attribute copy at source line 253 does not read from the
input cell index.  On the failing input of two 2-vertex polylines the second
output cell's attributes are copied from tuple index 2 — `firstVertexIndex`,
the cumulative vertex offset — although the cell-indexed attribute table of
this two-cell input only has cell indices 0 and 1 (the claim, and the
surrounding code, expect source index 1 for output cell 1). -/
theorem C1_cellData_copy_source :
    (RequestData { targetReduction := 0, maximumError := vtkDoubleMax }
        { points := [origin, ⟨1, 0, 0⟩, ⟨2, 0, 0⟩, ⟨3, 0, 0⟩],
          lines := [[0, 1], [1, 2]] }).1.cdCopies = [(0, 0), (2, 1)] ∧
      ({ points := [origin, ⟨1, 0, 0⟩, ⟨2, 0, 0⟩, ⟨3, 0, 0⟩],
          lines := [[0, 1], [1, 2]] } : InputPolyData).lines.length = 2 := by
  constructor
  · norm_num [RequestData, processPolyline, reduceCell, reduceLoop, initialReduceState,
      seedQueue, loopGuard, Polyline.ofIds, survivorIds, walkIdx, emitId, emptyOutState,
      computeError, prevPos, selfPos, nextPos, pointOf, dist2, dot, Point3.sub,
      distanceToLine, vtkDoubleMax, lookupId, reduceStep, Polyline.Remove, refreshNeighbor,
      popCheck, pqPop, pqMinEntry, pqRemoveFirst, pqDeleteId, origin,
      List.range, List.range.loop]
  · rfl

/-- C2: on the single open polyline over (0,0,0), (1,1/100,0), (2,0,0),
(3,0,0) with the default configuration (target reduction 9/10, unconstrained
error ceiling), both interior vertices are removed (two removal errors are
recorded) and the emitted polyline consists of exactly the two points with
original ids 0 and 3, in that order. -/
theorem C2_concrete_scenario :
    (RequestData defaultConfig
        { points := [⟨0, 0, 0⟩, ⟨1, 1/100, 0⟩, ⟨2, 0, 0⟩, ⟨3, 0, 0⟩],
          lines := [[0, 1, 2, 3]] }).1.cellsOrig = [[0, 3]] ∧
      (RequestData defaultConfig
        { points := [⟨0, 0, 0⟩, ⟨1, 1/100, 0⟩, ⟨2, 0, 0⟩, ⟨3, 0, 0⟩],
          lines := [[0, 1, 2, 3]] }).1.removalErrors.length = 2 := by
  norm_num [RequestData, processPolyline, reduceCell, reduceLoop, initialReduceState,
    seedQueue, loopGuard, Polyline.ofIds, survivorIds, walkIdx, emitId, emptyOutState,
    computeError, prevPos, selfPos, nextPos, pointOf, dist2, dot, Point3.sub,
    distanceToLine, vtkDoubleMax, defaultConfig, lookupId, reduceStep, Polyline.Remove,
    refreshNeighbor, popCheck, pqPop, pqMinEntry, pqRemoveFirst, pqDeleteId, origin,
    List.range, List.range.loop]

/-- C3 (amended): for every processed polyline the emitted vertex count never
exceeds the original count; it is at least 2 for open polylines; and for
loops it is at least `min 3 (original count)` — that is, at least 3 whenever
the loop originally has at least 3 vertices, while degenerate loops of 1 or 2
vertices are emitted with their original count.  (The unconditional "at least
3 for loops" of the claim fails for such degenerate loops, see the
counterexample.) -/
theorem C3_output_size_bounds (cfg : Config) (input : InputPolyData)
    (hpts : input.points ≠ []) (k : ℕ) (hk : k < input.lines.length)
    (hcell : input.lines.getD k [] ≠ []) :
    ((RequestData cfg input).1.cellsOrig.getD k []).length ≤ (input.lines.getD k []).length ∧
      ((Polyline.ofIds (input.lines.getD k [])).isLoop = false →
        2 ≤ ((RequestData cfg input).1.cellsOrig.getD k []).length) ∧
      ((Polyline.ofIds (input.lines.getD k [])).isLoop = true →
        min 3 (input.lines.getD k []).length
          ≤ ((RequestData cfg input).1.cellsOrig.getD k []).length) := by
  rw [RequestData_cellsOrig cfg input hpts, map_getD_lists _ _ k hk]
  exact ⟨survivorIds_length_le cfg input.points _,
    (survivorIds_lower cfg input.points _ hcell).1,
    (survivorIds_lower cfg input.points _ hcell).2⟩

/-- C3 counterexample: the degenerate loop cell `[0, 0]` (first and last
point identifiers equal, so `IsLoop` holds) is emitted with 2 vertices,
refuting the claimed unconditional lower bound of 3 for loops. -/
theorem C3_counterexample :
    (Polyline.ofIds [0, 0]).isLoop = true ∧
      ((RequestData defaultConfig
          { points := [origin], lines := [[0, 0]] }).1.cellsOrig.getD 0 []).length = 2 ∧
      ¬(3 ≤ ((RequestData defaultConfig
          { points := [origin], lines := [[0, 0]] }).1.cellsOrig.getD 0 []).length) := by
  have h : (RequestData defaultConfig
      { points := [origin], lines := [[0, 0]] }).1.cellsOrig = [[0, 0]] := by
    norm_num [RequestData, processPolyline, reduceCell, reduceLoop, initialReduceState,
      seedQueue, loopGuard, Polyline.ofIds, survivorIds, walkIdx, emitId, emptyOutState,
      computeError, prevPos, selfPos, nextPos, pointOf, dist2, dot, Point3.sub,
      distanceToLine, vtkDoubleMax, defaultConfig, lookupId, reduceStep, Polyline.Remove,
      refreshNeighbor, popCheck, pqPop, pqMinEntry, pqRemoveFirst, pqDeleteId, origin,
      List.range, List.range.loop]
  refine ⟨rfl, ?_, ?_⟩
  · rw [h]
    rfl
  · rw [h]
    decide

/-- C3 witness: the amended bounds instantiated on a concrete 3-vertex open
polyline. -/
theorem C3_witness :
    ((RequestData defaultConfig
        { points := [origin], lines := [[0, 1, 2]] }).1.cellsOrig.getD 0 []).length
        ≤ (([[0, 1, 2]] : List (List ℕ)).getD 0 []).length ∧
      ((Polyline.ofIds (([[0, 1, 2]] : List (List ℕ)).getD 0 [])).isLoop = false →
        2 ≤ ((RequestData defaultConfig
          { points := [origin], lines := [[0, 1, 2]] }).1.cellsOrig.getD 0 []).length) ∧
      ((Polyline.ofIds (([[0, 1, 2]] : List (List ℕ)).getD 0 [])).isLoop = true →
        min 3 (([[0, 1, 2]] : List (List ℕ)).getD 0 []).length
          ≤ ((RequestData defaultConfig
          { points := [origin], lines := [[0, 1, 2]] }).1.cellsOrig.getD 0 []).length) :=
  C3_output_size_bounds defaultConfig { points := [origin], lines := [[0, 1, 2]] }
    (List.cons_ne_nil origin []) 0 (by decide) (by decide)

/-- C4: the two endpoint identifiers of every input polyline survive into its
emitted cell, as its first and its last entry respectively — in particular in
the same relative order as in the input. -/
theorem C4_endpoints_preserved (cfg : Config) (input : InputPolyData)
    (hpts : input.points ≠ []) (k : ℕ) (hk : k < input.lines.length)
    (hcell : input.lines.getD k [] ≠ []) :
    (RequestData cfg input).1.cellsOrig.getD k [] ≠ [] ∧
      ((RequestData cfg input).1.cellsOrig.getD k []).head?
        = (input.lines.getD k []).head? ∧
      ((RequestData cfg input).1.cellsOrig.getD k []).getLast?
        = (input.lines.getD k []).getLast? := by
  rw [RequestData_cellsOrig cfg input hpts, map_getD_lists _ _ k hk]
  exact survivorIds_head_last cfg input.points _ hcell

/-- C4 witness: the endpoint preservation instantiated on a concrete
4-vertex polyline. -/
theorem C4_witness :
    (RequestData defaultConfig
        { points := [origin], lines := [[5, 6, 7, 8]] }).1.cellsOrig.getD 0 [] ≠ [] ∧
      ((RequestData defaultConfig
        { points := [origin], lines := [[5, 6, 7, 8]] }).1.cellsOrig.getD 0 []).head?
        = (([[5, 6, 7, 8]] : List (List ℕ)).getD 0 []).head? ∧
      ((RequestData defaultConfig
        { points := [origin], lines := [[5, 6, 7, 8]] }).1.cellsOrig.getD 0 []).getLast?
        = (([[5, 6, 7, 8]] : List (List ℕ)).getD 0 []).getLast? :=
  C4_endpoints_preserved defaultConfig { points := [origin], lines := [[5, 6, 7, 8]] }
    (List.cons_ne_nil origin []) 0 (by decide) (by decide)

/-- C5: with `TargetReduction = 0` the `while` condition fails immediately
for every polyline (the achieved fraction `1 - n/n = 0` is never `< 0`), so
no vertex is removed and every polyline is emitted with exactly its input
vertex sequence. -/
theorem C5_zero_target_reduction (cfg : Config) (input : InputPolyData)
    (hTR : cfg.targetReduction = 0) (hpts : input.points ≠ []) :
    (RequestData cfg input).1.cellsOrig = input.lines := by
  rw [RequestData_cellsOrig cfg input hpts]
  have h : input.lines.map (survivorIds cfg input.points) = input.lines.map id :=
    List.map_eq_map_iff.mpr (fun a _ => survivorIds_TR0 a hTR)
  rw [h, List.map_id]

/-- C5 witness: the zero-target identity instantiated on a concrete
two-polyline input. -/
theorem C5_witness :
    (RequestData { targetReduction := 0, maximumError := vtkDoubleMax }
        { points := [origin], lines := [[0, 1, 2], [2, 3]] }).1.cellsOrig
      = ([[0, 1, 2], [2, 3]] : List (List ℕ)) :=
  C5_zero_target_reduction { targetReduction := 0, maximumError := vtkDoubleMax }
    { points := [origin], lines := [[0, 1, 2], [2, 3]] } rfl (List.cons_ne_nil origin [])

/-- C7: with `MaximumError = 0`, every vertex the reduction loop ever
removes has computed error 0 at the moment of its removal (over the whole
run, all polylines): the seeding pass and every refresh insert a queue entry
only when its error is within the ceiling, entries always carry the current
error of their slot, and errors are non-negative. -/
theorem C7_zero_ceiling_removals (cfg : Config) (input : InputPolyData)
    (hmax : cfg.maximumError = 0) :
    ∀ x ∈ (RequestData cfg input).1.removalErrors, x = 0 :=
  RequestData_errs_zero cfg input hmax

/-- C7 witness: the zero-ceiling property instantiated on a concrete
polyline with a vertex of nonzero error. -/
theorem C7_witness :
    ((RequestData { targetReduction := 9/10, maximumError := 0 }
        { points := [⟨0, 0, 0⟩, ⟨1, 1, 0⟩, ⟨2, 0, 0⟩],
          lines := [[0, 1, 2]] }).1.removalErrors.all (fun x => decide (x = 0))) = true := by
  rw [List.all_eq_true]
  intro x hx
  rw [decide_eq_true_eq]
  exact C7_zero_ceiling_removals { targetReduction := 9/10, maximumError := 0 }
    { points := [⟨0, 0, 0⟩, ⟨1, 1, 0⟩, ⟨2, 0, 0⟩], lines := [[0, 1, 2]] } rfl x hx

/-- C9: when the priority queue's pop yields the empty sentinel while the
`while` condition still holds, the reduction loop for that polyline stops in
its current state (no error path); independently, the run always emits one
output cell per input line cell and `RequestData` always returns the success
code 1. -/
theorem C9_queue_exhaustion_is_silent (cfg : Config) (pts : List Point3) (n0 fuel : ℕ)
    (s : ReduceState) (input : InputPolyData)
    (hguard : loopGuard cfg n0 s = true) (hpop : (pqPop s.queue).1 = none)
    (hpts : input.points ≠ []) :
    reduceLoop cfg pts n0 (fuel + 1) s = s ∧
      (RequestData cfg input).2 = 1 ∧
      (RequestData cfg input).1.cells.length = input.lines.length := by
  refine ⟨?_, RequestData_code cfg input, RequestData_cells_length cfg input hpts⟩
  have hps : pqPop s.queue = (none, (pqPop s.queue).2) := Prod.ext hpop rfl
  rw [reduceLoop, if_pos hguard, hps]

/-- C9 witness: a state whose queue is empty while the target is unmet (a
4-vertex open polyline with target reduction 9/10), plus a concrete input. -/
theorem C9_witness :
    reduceLoop defaultConfig [] 4 (3 + 1)
        { poly := Polyline.ofIds [0, 1, 2, 3], queue := [], cur := 4,
          live := fun j => decide (j < 4), safe := true, errs := [] }
      = { poly := Polyline.ofIds [0, 1, 2, 3], queue := [], cur := 4,
          live := fun j => decide (j < 4), safe := true, errs := [] } ∧
      (RequestData defaultConfig { points := [origin], lines := [[0, 1]] }).2 = 1 ∧
      (RequestData defaultConfig
        { points := [origin], lines := [[0, 1]] }).1.cells.length
        = ([[0, 1]] : List (List ℕ)).length :=
  C9_queue_exhaustion_is_silent defaultConfig [] 4 3 _ _
    (by norm_num [loopGuard, Polyline.ofIds, defaultConfig, vtkDoubleMax]) rfl
    (List.cons_ne_nil origin [])

/-- C10: over every run and configuration, every slot the loop ever pops is
removable (interior), live, and has non-null `prev`/`next` links to live
slots at pop time, and the neighbour links dereferenced afterwards are
non-null: the ghost `safe` flag, which conjoins all those checks at every
pop, ends every run `true`. -/
theorem C10_pops_are_safe (cfg : Config) (input : InputPolyData) :
    (RequestData cfg input).1.safe = true :=
  RequestData_safe cfg input

/-- C6: `ComputeError` returns 0 whenever the squared distance between the
`prev` and `next` positions is 0, regardless of the slot's own position;
otherwise it returns (the squared representation of) the perpendicular
point-to-line distance from the slot's position to the infinite line through
`prev` and `next`: its value is attained at the foot of the perpendicular on
that line and is a lower bound for the squared distance to every point of
the line. -/
theorem C6_computeError_characterisation (pts : List Point3) (p : Polyline) (idx : ℕ) :
    (dist2 (prevPos pts p idx) (nextPos pts p idx) = 0 → computeError pts p idx = 0) ∧
      (dist2 (prevPos pts p idx) (nextPos pts p idx) ≠ 0 →
        computeError pts p idx =
          dist2 (selfPos pts p idx)
            (lineAt (prevPos pts p idx) (nextPos pts p idx)
              (dot ((selfPos pts p idx).sub (prevPos pts p idx))
                  ((nextPos pts p idx).sub (prevPos pts p idx)) /
                dist2 (prevPos pts p idx) (nextPos pts p idx))) ∧
        ∀ t : ℚ, computeError pts p idx
          ≤ dist2 (selfPos pts p idx) (lineAt (prevPos pts p idx) (nextPos pts p idx) t)) := by
  constructor
  · intro h
    rw [computeError, if_pos h]
  · intro h
    have hce : computeError pts p idx
        = distanceToLine (selfPos pts p idx) (prevPos pts p idx) (nextPos pts p idx) := by
      rw [computeError, if_neg h]
    exact ⟨hce.trans (distanceToLine_attained _ _ _ h),
      fun t => hce ▸ distanceToLine_le _ _ _ h t⟩

/-- C6 witness: on a slot whose neighbours coincide at the origin while the
slot itself sits at (5,7,0), the error is 0; on a slot with distinct
neighbours, the error bounds the squared distance to every point of the
neighbour line. -/
theorem C6_witness :
    computeError [⟨0, 0, 0⟩, ⟨5, 7, 0⟩, ⟨0, 0, 0⟩] (Polyline.ofIds [0, 1, 2]) 1 = 0 ∧
      ∀ t : ℚ, computeError [⟨0, 0, 0⟩, ⟨1, 1, 0⟩, ⟨2, 0, 0⟩] (Polyline.ofIds [0, 1, 2]) 1
        ≤ dist2 (selfPos [⟨0, 0, 0⟩, ⟨1, 1, 0⟩, ⟨2, 0, 0⟩] (Polyline.ofIds [0, 1, 2]) 1)
          (lineAt (prevPos [⟨0, 0, 0⟩, ⟨1, 1, 0⟩, ⟨2, 0, 0⟩] (Polyline.ofIds [0, 1, 2]) 1)
            (nextPos [⟨0, 0, 0⟩, ⟨1, 1, 0⟩, ⟨2, 0, 0⟩] (Polyline.ofIds [0, 1, 2]) 1) t) :=
  ⟨(C6_computeError_characterisation [⟨0, 0, 0⟩, ⟨5, 7, 0⟩, ⟨0, 0, 0⟩]
      (Polyline.ofIds [0, 1, 2]) 1).1
      (by norm_num [prevPos, nextPos, pointOf, Polyline.ofIds, dist2, dot, Point3.sub, origin]),
    ((C6_computeError_characterisation [⟨0, 0, 0⟩, ⟨1, 1, 0⟩, ⟨2, 0, 0⟩]
      (Polyline.ofIds [0, 1, 2]) 1).2
      (by norm_num [prevPos, nextPos, pointOf, Polyline.ofIds, dist2, dot, Point3.sub,
        origin])).2⟩

/-! ## The run-scoped point-id map -/

theorem lookupId_eq_none : ∀ (m : List (ℕ × ℕ)) (k : ℕ),
    lookupId m k = none ↔ k ∉ m.map Prod.fst
  | [], k => by simp [lookupId]
  | e :: rest, k => by
    simp only [lookupId, List.map_cons, List.mem_cons]
    by_cases he : e.1 = k
    · subst he
      simp
    · rw [if_neg he, lookupId_eq_none rest k]
      constructor
      · intro h hc
        rcases hc with hc | hc
        · exact he hc.symm
        · exact h hc
      · intro h hc
        exact h (Or.inr hc)

theorem lookupId_mem_of_some {m : List (ℕ × ℕ)} {k v : ℕ} (h : lookupId m k = some v) :
    k ∈ m.map Prod.fst := by
  by_contra hc
  rw [← lookupId_eq_none m k] at hc
  rw [h] at hc
  cases hc

theorem lookupId_isSome_of_mem {m : List (ℕ × ℕ)} {k : ℕ} (h : k ∈ m.map Prod.fst) :
    ∃ v, lookupId m k = some v := by
  rcases hv : lookupId m k with _ | v
  · exact absurd h ((lookupId_eq_none m k).mp hv)
  · exact ⟨v, rfl⟩

theorem lookupId_append_some {m m2 : List (ℕ × ℕ)} {k v : ℕ} (h : lookupId m k = some v) :
    lookupId (m ++ m2) k = some v := by
  induction m with
  | nil => cases h
  | cons e rest ih =>
    simp only [lookupId, List.cons_append] at h ⊢
    by_cases he : e.1 = k
    · rw [if_pos he] at h ⊢
      exact h
    · rw [if_neg he] at h ⊢
      exact ih h

theorem lookupId_append_none {m m2 : List (ℕ × ℕ)} {k : ℕ} (h : lookupId m k = none) :
    lookupId (m ++ m2) k = lookupId m2 k := by
  induction m with
  | nil => rfl
  | cons e rest ih =>
    simp only [lookupId, List.cons_append] at h ⊢
    by_cases he : e.1 = k
    · rw [if_pos he] at h
      cases h
    · rw [if_neg he] at h ⊢
      exact ih h

/-! ## The emission invariant

Within one run the output assembler maintains: the id map's keys are unique
and are exactly the original ids emitted so far; `pdCopies` (the per-point
attribute copies) coincides with the id map (one copy per first emission);
each new id indexes the point appended at its first emission; and every
recorded output cell position holds exactly the mapped new id of its
original id.  `EmitInvAux` is the mid-cell version, where the partial cell
accumulators take part. -/
structure EmitInvAux (inputPts : List Point3) (acc : OutState × List ℕ × List ℕ) : Prop where
  keysNodup : ((acc.1.pointIdMap.map Prod.fst)).Nodup
  pdEq : acc.1.pdCopies = acc.1.pointIdMap
  ptsLen : acc.1.pts.length = acc.1.pointIdMap.length
  mapRange : ∀ pr ∈ acc.1.pointIdMap, pr.2 < acc.1.pts.length ∧
    acc.1.pts.getD pr.2 origin = pointOf inputPts pr.1
  cellsLen : acc.1.cells.length = acc.1.cellsOrig.length
  cellsCorr : ∀ (k : ℕ) (co : List ℕ), acc.1.cellsOrig[k]? = some co →
    ∃ cn : List ℕ, acc.1.cells[k]? = some cn ∧ co.length = cn.length ∧
      ∀ (j pid : ℕ), co[j]? = some pid →
        ∃ nid : ℕ, lookupId acc.1.pointIdMap pid = some nid ∧ cn[j]? = some nid
  keysIff : ∀ pid, pid ∈ acc.1.pointIdMap.map Prod.fst ↔
    pid ∈ acc.1.cellsOrig.flatten ∨ pid ∈ acc.2.2
  pairLen : acc.2.2.length = acc.2.1.length
  pairCorr : ∀ (j pid : ℕ), acc.2.2[j]? = some pid →
    ∃ nid : ℕ, lookupId acc.1.pointIdMap pid = some nid ∧ acc.2.1[j]? = some nid


theorem emitInvAux_step {inputPts : List Point3} {acc : OutState × List ℕ × List ℕ}
    (h : EmitInvAux inputPts acc) (pid : ℕ) :
    EmitInvAux inputPts (emitId inputPts acc pid) := by
  rcases hlk : lookupId acc.1.pointIdMap pid with _ | nid
  · have he : emitId inputPts acc pid =
        ({ acc.1 with
            pts := acc.1.pts ++ [pointOf inputPts pid]
            pdCopies := acc.1.pdCopies ++ [(pid, acc.1.pts.length)]
            pointIdMap := acc.1.pointIdMap ++ [(pid, acc.1.pts.length)] },
          acc.2.1 ++ [acc.1.pts.length], acc.2.2 ++ [pid]) := by
      simp [emitId, hlk]
    rw [he]
    have hknotin : pid ∉ acc.1.pointIdMap.map Prod.fst := (lookupId_eq_none _ _).mp hlk
    refine ⟨?_, ?_, ?_, ?_, ?_, ?_, ?_, ?_, ?_⟩
    · show ((acc.1.pointIdMap ++ [(pid, acc.1.pts.length)]).map Prod.fst).Nodup
      rw [List.map_append]
      refine List.Nodup.append h.keysNodup (by simp) ?_
      intro a ha hb
      simp only [List.map_cons, List.map_nil, List.mem_singleton] at hb
      subst hb
      exact hknotin ha
    · show acc.1.pdCopies ++ [(pid, acc.1.pts.length)]
        = acc.1.pointIdMap ++ [(pid, acc.1.pts.length)]
      rw [h.pdEq]
    · show (acc.1.pts ++ [pointOf inputPts pid]).length
        = (acc.1.pointIdMap ++ [(pid, acc.1.pts.length)]).length
      simp [h.ptsLen]
    · intro pr hpr
      rcases List.mem_append.mp hpr with hpr | hpr
      · obtain ⟨h1, h2⟩ := h.mapRange pr hpr
        refine ⟨by simp only [List.length_append]; omega, ?_⟩
        show (acc.1.pts ++ [pointOf inputPts pid]).getD pr.2 origin = _
        rw [List.getD_append _ _ origin _ h1]
        exact h2
      · simp only [List.mem_singleton] at hpr
        subst hpr
        refine ⟨by simp, ?_⟩
        show (acc.1.pts ++ [pointOf inputPts pid]).getD acc.1.pts.length origin = _
        rw [List.getD_eq_getElem?_getD, List.getElem?_concat_length]
        rfl
    · exact h.cellsLen
    · intro k co hk
      obtain ⟨cn, h1, h2, h3⟩ := h.cellsCorr k co hk
      refine ⟨cn, h1, h2, ?_⟩
      intro j pid2 hj
      obtain ⟨nid2, h4, h5⟩ := h3 j pid2 hj
      exact ⟨nid2, lookupId_append_some h4, h5⟩
    · intro x
      show x ∈ (acc.1.pointIdMap ++ [(pid, acc.1.pts.length)]).map Prod.fst ↔
        x ∈ acc.1.cellsOrig.flatten ∨ x ∈ acc.2.2 ++ [pid]
      rw [List.map_append]
      simp only [List.map_cons, List.map_nil, List.mem_append, List.mem_singleton]
      rw [show (x ∈ acc.1.pointIdMap.map Prod.fst) ↔
        (x ∈ acc.1.cellsOrig.flatten ∨ x ∈ acc.2.2) from h.keysIff x]
      constructor
      · intro hx
        rcases hx with (hx | hx) | hx
        · exact Or.inl hx
        · exact Or.inr (Or.inl hx)
        · exact Or.inr (Or.inr hx)
      · intro hx
        rcases hx with hx | hx | hx
        · exact Or.inl (Or.inl hx)
        · exact Or.inl (Or.inr hx)
        · exact Or.inr hx
    · show (acc.2.2 ++ [pid]).length = (acc.2.1 ++ [acc.1.pts.length]).length
      simp [h.pairLen]
    · intro j pid2 hj
      simp only at hj ⊢
      by_cases hjlen : j < acc.2.2.length
      · rw [List.getElem?_append_left hjlen] at hj
        obtain ⟨nid2, h4, h5⟩ := h.pairCorr j pid2 hj
        refine ⟨nid2, lookupId_append_some h4, ?_⟩
        have hjc : j < acc.2.1.length := by
          rw [← h.pairLen]
          exact hjlen
        rw [List.getElem?_append_left hjc]
        exact h5
      · have hjeq : j = acc.2.2.length := by
          by_contra hc
          have hge : (acc.2.2 ++ [pid]).length ≤ j := by
            simp only [List.length_append, List.length_cons, List.length_nil]
            omega
          rw [List.getElem?_eq_none_iff.mpr hge] at hj
          cases hj
        subst hjeq
        rw [List.getElem?_concat_length] at hj
        obtain rfl : pid = pid2 := Option.some.inj hj
        refine ⟨acc.1.pts.length, ?_, ?_⟩
        · rw [lookupId_append_none hlk]
          simp [lookupId]
        · rw [h.pairLen, List.getElem?_concat_length]
  · have he : emitId inputPts acc pid = (acc.1, acc.2.1 ++ [nid], acc.2.2 ++ [pid]) := by
      simp [emitId, hlk]
    rw [he]
    refine ⟨h.keysNodup, h.pdEq, h.ptsLen, h.mapRange, h.cellsLen, h.cellsCorr, ?_, ?_, ?_⟩
    · intro x
      show x ∈ acc.1.pointIdMap.map Prod.fst ↔
        x ∈ acc.1.cellsOrig.flatten ∨ x ∈ acc.2.2 ++ [pid]
      rw [show (x ∈ acc.1.pointIdMap.map Prod.fst) ↔
        (x ∈ acc.1.cellsOrig.flatten ∨ x ∈ acc.2.2) from h.keysIff x]
      constructor
      · intro hx
        rcases hx with hx | hx
        · exact Or.inl hx
        · exact Or.inr (List.mem_append.mpr (Or.inl hx))
      · intro hx
        rcases hx with hx | hx
        · exact Or.inl hx
        · rcases List.mem_append.mp hx with hx | hx
          · exact Or.inr hx
          · simp only [List.mem_singleton] at hx
            subst hx
            exact (h.keysIff x).mp (lookupId_mem_of_some hlk)
    · show (acc.2.2 ++ [pid]).length = (acc.2.1 ++ [nid]).length
      simp [h.pairLen]
    · intro j pid2 hj
      simp only at hj ⊢
      by_cases hjlen : j < acc.2.2.length
      · rw [List.getElem?_append_left hjlen] at hj
        obtain ⟨nid2, h4, h5⟩ := h.pairCorr j pid2 hj
        refine ⟨nid2, h4, ?_⟩
        have hjc : j < acc.2.1.length := by
          rw [← h.pairLen]
          exact hjlen
        rw [List.getElem?_append_left hjc]
        exact h5
      · have hjeq : j = acc.2.2.length := by
          by_contra hc
          have hge : (acc.2.2 ++ [pid]).length ≤ j := by
            simp only [List.length_append, List.length_cons, List.length_nil]
            omega
          rw [List.getElem?_eq_none_iff.mpr hge] at hj
          cases hj
        subst hjeq
        rw [List.getElem?_concat_length] at hj
        obtain rfl : pid = pid2 := Option.some.inj hj
        refine ⟨nid, hlk, ?_⟩
        rw [h.pairLen, List.getElem?_concat_length]

theorem emitInvAux_fold {inputPts : List Point3} :
    ∀ (l : List ℕ) (acc : OutState × List ℕ × List ℕ), EmitInvAux inputPts acc →
      EmitInvAux inputPts (l.foldl (emitId inputPts) acc) := by
  intro l
  induction l with
  | nil => exact fun acc h => h
  | cons a t ih =>
    intro acc h
    rw [List.foldl_cons]
    exact ih _ (emitInvAux_step h a)

theorem lookupId_mem_pair : ∀ {m : List (ℕ × ℕ)} {k v : ℕ}, lookupId m k = some v → (k, v) ∈ m
  | [], _, _, h => by cases h
  | e :: rest, k, v, h => by
    simp only [lookupId] at h
    by_cases he : e.1 = k
    · rw [if_pos he] at h
      obtain rfl : e.2 = v := Option.some.inj h
      subst he
      exact List.mem_cons_self e rest
    · rw [if_neg he] at h
      exact List.mem_cons_of_mem e (lookupId_mem_pair h)

/-- The between-cells form of the emission invariant. -/
def EmitInv (inputPts : List Point3) (st : OutState) : Prop :=
  EmitInvAux inputPts (st, [], [])

theorem emitInv_processPolyline {cfg : Config} {inputPts : List Point3} {acc : OutState × ℕ}
    (h : EmitInv inputPts acc.1) (cell : List ℕ) :
    EmitInv inputPts (processPolyline cfg inputPts acc cell).1 := by
  have h1 : EmitInvAux inputPts
      ({ acc.1 with
          cdCopies := acc.1.cdCopies ++ [(acc.2, acc.1.cells.length)]
          safe := acc.1.safe && (reduceCell cfg inputPts cell).safe
          removalErrors := acc.1.removalErrors ++ (reduceCell cfg inputPts cell).errs },
        [], []) :=
    ⟨h.keysNodup, h.pdEq, h.ptsLen, h.mapRange, h.cellsLen, h.cellsCorr, h.keysIff,
      h.pairLen, h.pairCorr⟩
  have hfold := emitInvAux_fold (survivorIds cfg inputPts cell) _ h1
  simp only [processPolyline]
  set F := (survivorIds cfg inputPts cell).foldl (emitId inputPts)
    ({ acc.1 with
        cdCopies := acc.1.cdCopies ++ [(acc.2, acc.1.cells.length)]
        safe := acc.1.safe && (reduceCell cfg inputPts cell).safe
        removalErrors := acc.1.removalErrors ++ (reduceCell cfg inputPts cell).errs },
      [], []) with hF
  have hkeysN : (F.1.pointIdMap.map Prod.fst).Nodup := hfold.keysNodup
  have hpd : F.1.pdCopies = F.1.pointIdMap := hfold.pdEq
  have hpts : F.1.pts.length = F.1.pointIdMap.length := hfold.ptsLen
  have hrange : ∀ pr ∈ F.1.pointIdMap, pr.2 < F.1.pts.length ∧
      F.1.pts.getD pr.2 origin = pointOf inputPts pr.1 := hfold.mapRange
  have hclen : F.1.cells.length = F.1.cellsOrig.length := hfold.cellsLen
  have hccorr := hfold.cellsCorr
  have hkiff : ∀ pid, pid ∈ F.1.pointIdMap.map Prod.fst ↔
      pid ∈ F.1.cellsOrig.flatten ∨ pid ∈ F.2.2 := hfold.keysIff
  have hplen : F.2.2.length = F.2.1.length := hfold.pairLen
  have hpcorr := hfold.pairCorr
  refine ⟨hkeysN, hpd, hpts, hrange, ?_, ?_, ?_, rfl, ?_⟩
  · show (F.1.cells ++ [F.2.1]).length = (F.1.cellsOrig ++ [F.2.2]).length
    simp [hclen]
  · intro k co hk
    show ∃ cn : List ℕ, (F.1.cells ++ [F.2.1])[k]? = some cn ∧ co.length = cn.length ∧
      ∀ (j pid : ℕ), co[j]? = some pid →
        ∃ nid : ℕ, lookupId F.1.pointIdMap pid = some nid ∧ cn[j]? = some nid
    have hk0 : (F.1.cellsOrig ++ [F.2.2])[k]? = some co := hk
    by_cases hklen : k < F.1.cellsOrig.length
    · rw [List.getElem?_append_left hklen] at hk0
      obtain ⟨cn, hc1, hc2, hc3⟩ := hccorr k co hk0
      refine ⟨cn, ?_, hc2, hc3⟩
      rw [List.getElem?_append_left (by omega : k < F.1.cells.length)]
      exact hc1
    · have hkeq : k = F.1.cellsOrig.length := by
        by_contra hc
        have hge : (F.1.cellsOrig ++ [F.2.2]).length ≤ k := by
          simp only [List.length_append, List.length_cons, List.length_nil]
          omega
        rw [List.getElem?_eq_none_iff.mpr hge] at hk0
        cases hk0
      subst hkeq
      rw [List.getElem?_concat_length] at hk0
      obtain rfl : F.2.2 = co := Option.some.inj hk0
      refine ⟨F.2.1, ?_, hplen, ?_⟩
      · rw [← hclen, List.getElem?_concat_length]
      · intro j pid hj
        exact hpcorr j pid hj
  · intro pid
    show pid ∈ F.1.pointIdMap.map Prod.fst ↔
      pid ∈ (F.1.cellsOrig ++ [F.2.2]).flatten ∨ pid ∈ ([] : List ℕ)
    rw [hkiff pid]
    simp only [List.flatten_append, List.flatten_cons, List.flatten_nil, List.append_nil,
      List.mem_append, List.not_mem_nil, or_false]
  · intro j pid hj
    cases hj

theorem emitInv_fold {cfg : Config} {inputPts : List Point3} :
    ∀ (cells : List (List ℕ)) (acc : OutState × ℕ), EmitInv inputPts acc.1 →
      EmitInv inputPts ((cells.foldl (processPolyline cfg inputPts) acc).1) := by
  intro cells
  induction cells with
  | nil => exact fun acc h => h
  | cons c t ih =>
    intro acc h
    rw [List.foldl_cons]
    exact ih _ (emitInv_processPolyline h c)

theorem emitInv_empty (inputPts : List Point3) : EmitInv inputPts emptyOutState := by
  refine ⟨?_, rfl, rfl, ?_, rfl, ?_, ?_, rfl, ?_⟩
  · show (([] : List (ℕ × ℕ)).map Prod.fst).Nodup
    simp
  · intro pr hpr
    cases hpr
  · intro k co hk
    cases hk
  · intro pid
    show pid ∈ (([] : List (ℕ × ℕ)).map Prod.fst) ↔ pid ∈ ([] : List (List ℕ)).flatten ∨ _
    simp
  · intro j pid hj
    cases hj

theorem RequestData_emitInv (cfg : Config) (input : InputPolyData) :
    EmitInv input.points (RequestData cfg input).1 := by
  rw [RequestData]
  by_cases h : input.lines.length < 1 ∨ input.points.length < 1
  · rw [if_pos h]
    exact emitInv_empty input.points
  · rw [if_neg h]
    exact emitInv_fold input.lines (emptyOutState, 0) (emitInv_empty input.points)

/-- C8: any point identifier is the source of at most one per-point
attribute copy over the whole run; and every identifier that appears in some
emitted cell has exactly one such copy, one appended output point holding
its coordinates, and a single new output identifier that every output-cell
position referring to it uses — in particular an identifier shared by two or
more input polylines is emitted once and referenced consistently. -/
theorem C8_shared_points_emitted_once (cfg : Config) (input : InputPolyData) (pid : ℕ) :
    (((RequestData cfg input).1.pdCopies.map Prod.fst).count pid ≤ 1) ∧
      (pid ∈ (RequestData cfg input).1.cellsOrig.flatten →
        ∃ nid : ℕ, lookupId (RequestData cfg input).1.pointIdMap pid = some nid ∧
          ((RequestData cfg input).1.pdCopies.map Prod.fst).count pid = 1 ∧
          nid < (RequestData cfg input).1.pts.length ∧
          (RequestData cfg input).1.pts.getD nid origin = pointOf input.points pid ∧
          ∀ (k : ℕ) (co : List ℕ) (j : ℕ),
            (RequestData cfg input).1.cellsOrig[k]? = some co → co[j]? = some pid →
            ∃ cn : List ℕ, (RequestData cfg input).1.cells[k]? = some cn ∧
              cn[j]? = some nid) := by
  have hinv := RequestData_emitInv cfg input
  have hkeysN : ((RequestData cfg input).1.pointIdMap.map Prod.fst).Nodup := hinv.keysNodup
  have hpd : (RequestData cfg input).1.pdCopies = (RequestData cfg input).1.pointIdMap :=
    hinv.pdEq
  have hrange : ∀ pr ∈ (RequestData cfg input).1.pointIdMap,
      pr.2 < (RequestData cfg input).1.pts.length ∧
      (RequestData cfg input).1.pts.getD pr.2 origin = pointOf input.points pr.1 :=
    hinv.mapRange
  have hccorr : ∀ (k : ℕ) (co : List ℕ),
      (RequestData cfg input).1.cellsOrig[k]? = some co →
      ∃ cn : List ℕ, (RequestData cfg input).1.cells[k]? = some cn ∧
        co.length = cn.length ∧
        ∀ (j pid2 : ℕ), co[j]? = some pid2 →
          ∃ nid : ℕ, lookupId (RequestData cfg input).1.pointIdMap pid2 = some nid ∧
            cn[j]? = some nid := hinv.cellsCorr
  have hkiff : ∀ x, x ∈ (RequestData cfg input).1.pointIdMap.map Prod.fst ↔
      x ∈ (RequestData cfg input).1.cellsOrig.flatten ∨ x ∈ ([] : List ℕ) := hinv.keysIff
  constructor
  · rw [hpd]
    by_cases hmem : pid ∈ (RequestData cfg input).1.pointIdMap.map Prod.fst
    · rw [List.count_eq_one_of_mem hkeysN hmem]
    · rw [List.count_eq_zero_of_not_mem hmem]
      omega
  · intro hjoin
    have hmem : pid ∈ (RequestData cfg input).1.pointIdMap.map Prod.fst :=
      (hkiff pid).mpr (Or.inl hjoin)
    obtain ⟨nid, hnid⟩ := lookupId_isSome_of_mem hmem
    obtain ⟨hlt, hcoord⟩ := hrange (pid, nid) (lookupId_mem_pair hnid)
    refine ⟨nid, hnid, ?_, hlt, hcoord, ?_⟩
    · rw [hpd]
      rw [List.count_eq_one_of_mem hkeysN hmem]
    · intro k co j hk hj
      obtain ⟨cn, hc1, _, hc3⟩ := hccorr k co hk
      obtain ⟨nid2, h4, h5⟩ := hc3 j pid hj
      rw [hnid] at h4
      obtain rfl : nid = nid2 := Option.some.inj h4
      exact ⟨cn, hc1, h5⟩

/-- C8 witness: the identifier 1 shared by the two polylines `[0,1]` and
`[1,2]` (run with zero target reduction so both survive whole) is emitted
once and referenced by both output cells through one new identifier. -/
theorem C8_witness :
    ∃ nid : ℕ,
      lookupId (RequestData { targetReduction := 0, maximumError := vtkDoubleMax }
        { points := [origin, ⟨1, 0, 0⟩, ⟨2, 0, 0⟩],
          lines := [[0, 1], [1, 2]] }).1.pointIdMap 1 = some nid ∧
      ((RequestData { targetReduction := 0, maximumError := vtkDoubleMax }
        { points := [origin, ⟨1, 0, 0⟩, ⟨2, 0, 0⟩],
          lines := [[0, 1], [1, 2]] }).1.pdCopies.map Prod.fst).count 1 = 1 ∧
      nid < (RequestData { targetReduction := 0, maximumError := vtkDoubleMax }
        { points := [origin, ⟨1, 0, 0⟩, ⟨2, 0, 0⟩],
          lines := [[0, 1], [1, 2]] }).1.pts.length ∧
      (RequestData { targetReduction := 0, maximumError := vtkDoubleMax }
        { points := [origin, ⟨1, 0, 0⟩, ⟨2, 0, 0⟩],
          lines := [[0, 1], [1, 2]] }).1.pts.getD nid origin
        = pointOf [origin, ⟨1, 0, 0⟩, ⟨2, 0, 0⟩] 1 ∧
      ∀ (k : ℕ) (co : List ℕ) (j : ℕ),
        (RequestData { targetReduction := 0, maximumError := vtkDoubleMax }
          { points := [origin, ⟨1, 0, 0⟩, ⟨2, 0, 0⟩],
            lines := [[0, 1], [1, 2]] }).1.cellsOrig[k]? = some co → co[j]? = some 1 →
        ∃ cn : List ℕ,
          (RequestData { targetReduction := 0, maximumError := vtkDoubleMax }
            { points := [origin, ⟨1, 0, 0⟩, ⟨2, 0, 0⟩],
              lines := [[0, 1], [1, 2]] }).1.cells[k]? = some cn ∧ cn[j]? = some nid := by
  refine (C8_shared_points_emitted_once { targetReduction := 0, maximumError := vtkDoubleMax }
    { points := [origin, ⟨1, 0, 0⟩, ⟨2, 0, 0⟩], lines := [[0, 1], [1, 2]] } 1).2 ?_
  rw [RequestData_cellsOrig _ _ (List.cons_ne_nil _ _)]
  have h1 : survivorIds { targetReduction := 0, maximumError := vtkDoubleMax }
      [origin, ⟨1, 0, 0⟩, ⟨2, 0, 0⟩] [0, 1] = [0, 1] := survivorIds_TR0 _ rfl
  have h2 : survivorIds { targetReduction := 0, maximumError := vtkDoubleMax }
      [origin, ⟨1, 0, 0⟩, ⟨2, 0, 0⟩] [1, 2] = [1, 2] := survivorIds_TR0 _ rfl
  simp [h1, h2]
